import Mathlib

/-!
Verification of the PyZeta core: constrained symbolic-word enumeration
(`pyzeta.core.dynamics.symbolic_dynamics`), combinatorial word filters, and
the scalar/weighted cycle-expansion (Bell polynomial) engines
(`pyzeta.core.zetas`).  Python/numpy code is embedded shallowly: words are
`List Nat`, word batches are `List (List Nat)`, complex numpy arrays become
functions into `ℂ`, and numpy index errors are modelled with `Except`.
-/

namespace PyZeta

/-- A symbolic word: a sequence of letters from the alphabet 0..m-1.
Mirrors a row of a `tWordVec` numpy array. -/
abbrev Word := List Nat

/-! ### Adjacency matrices and their powers (filters.py: matMul and the
adjacency-power word counting) -/

/-- Indicator matrix of a boolean adjacency function, as entries in ℕ.
Mirrors how `matMul` in filters.py consumes the boolean matrix `adj`. -/
def adjInd (adj : Nat → Nat → Bool) : Nat → Nat → Nat :=
  fun i j => if adj i j then 1 else 0

/-- The m×m identity matrix `np.eye(alphabetSize)` over ℕ. -/
def matId : Nat → Nat → Nat :=
  fun i j => if i = j then 1 else 0

/-- `matMul` from filters.py: `result[i][j] = Σ_k left[i][k] * right[k][j]`,
with `k` running over the alphabet 0..m-1. -/
def matMul (m : Nat) (A B : Nat → Nat → Nat) : Nat → Nat → Nat :=
  fun i j => ∑ k ∈ Finset.range m, A i k * B k j

/-- `adjPower` after `k` iterations of `adjPower = matMul(adjPower, adj)`
starting from `np.eye(alphabetSize)`. -/
def adjPow (m : Nat) (adj : Nat → Nat → Bool) : Nat → (Nat → Nat → Nat)
  | 0 => matId
  | k + 1 => matMul m (adjPow m adj k) (adjInd adj)

/-- `np.sum(adjPower)`: total of all matrix entries over the m×m square. -/
def matTotal (m : Nat) (A : Nat → Nat → Nat) : Nat :=
  ∑ i ∈ Finset.range m, ∑ j ∈ Finset.range m, A i j

/-! ### Word generation (filters.py: getWordsFast) -/

/-- The ascending list of letters reachable from letter `r`.  Mirrors
`adjNonNull[1][adjNonNull[0] == word[length - 1]]` in filters.py:
`np.nonzero` lists column indices of row `r` in ascending order, and yields
nothing for a row index that does not exist in the m×m matrix (as happens
when the uint8 padding value 255 is read back from the buffer). -/
def adjRow (m : Nat) (adj : Nat → Nat → Bool) (r : Nat) : List Nat :=
  if r < m then (List.range m).filter (fun j => adj r j) else []

/-- One pass of the word-extension loop in `getWordsFast`/`appendWordsFast`:
every current word `w` is replaced by the block of words `w ++ [j]` for the
letters `j` reachable from the last letter of `w`, in ascending order. -/
def extendStep (m : Nat) (adj : Nat → Nat → Bool) (ws : List Word) : List Word :=
  ws.flatMap (fun w => (adjRow m adj (w.getLastD 0)).map (fun j => w ++ [j]))

/-- The m singleton words `[0], ..., [m-1]`, the initialisation
`result[i][0] = i` of `getWordsFast`. -/
def singletonWords (m : Nat) : List Word :=
  (List.range m).map (fun i => [i])

/-- `getWordsFast(n, adj)` from filters.py, at the level of the list of
words it fills into its result buffer: start from the m singletons and run
the extension pass n-1 times.  (The preallocated uint8 buffer of
`np.sum(adj^(n-1))` rows is abstracted away; the sequential writes at
`result[pos]` are exactly the order of this flatMap.)  At n = 0 the
buffer is an (m, 0) array — m rows with no columns — so the result is m
empty words (the `result[i][0] = i` initialisation writes into
zero-length rows and leaves no trace in the returned array). -/
def getWordsFast (m : Nat) (adj : Nat → Nat → Bool) (n : Nat) : List Word :=
  if n = 0 then List.replicate m []
  else (extendStep m adj)^[n - 1] (singletonWords m)

/-! ### All words in lexicographic order, and admissibility.  These two
definitions follow the SPEC's description of the word-batch contract
("first letters 0..m-1 ascending; children appended in ascending
next-letter order", i.e. the lexicographic pre-order of the full m-ary
tree) and of validity ("every consecutive pair is adjacency-legal").
They are the independent yardstick the generated batches are compared
against. -/

/-- All length-n words over the alphabet 0..m-1, in lexicographic
(pre-order traversal) order. -/
def allWords (m : Nat) : Nat → List Word
  | 0 => [[]]
  | n + 1 => (allWords m n).flatMap (fun w => (List.range m).map (fun j => w ++ [j]))

/-- A word is admissible when every consecutive letter pair is a legal
transition of `adj`. -/
def admissible (adj : Nat → Nat → Bool) : Word → Bool
  | [] => true
  | [_] => true
  | a :: b :: rest => adj a b && admissible adj (b :: rest)

/-! ### Word filters (filters.py) -/

/-- Inner block comparison of `isPrimeFast`: word decomposes into n/k
identical contiguous blocks of size k (`word[:k] == word[m*k:(m+1)*k]` for
every block index m = 1..n/k-1). -/
def blocksEqual (w : Word) (k : Nat) : Bool :=
  (List.range (w.length / k - 1)).all
    (fun i => ((w.drop ((i + 1) * k)).take k) == w.take k)

/-- `isPrimeFast` from filters.py: `w` is prime iff it is not a k-fold
repetition of its length-k head for any divisor k ≤ n/2 of its length n. -/
def isPrimeFast (w : Word) : Bool :=
  (List.range (w.length / 2)).all
    (fun i => !(w.length % (i + 1) == 0 && blocksEqual w (i + 1)))

/-- `np.roll(word, 1)`: rotate one step, the last letter moving to the
front. -/
def roll (w : Word) : Word :=
  match w.getLast? with
  | none => []
  | some a => a :: w.dropLast

/-- `containsPermFast` from filters.py: some cyclic rotation (by 1..n
positions) of `word` occurs in `wordsToCheck`. -/
def containsPermFast (w : Word) (wordsToCheck : List Word) : Bool :=
  (List.range w.length).any (fun i => wordsToCheck.contains (roll^[i + 1] w))

/-- Accumulating pass of `filterPermsFast`: the mask keeps `words[i]` iff
no rotation of it occurs among `words[:i]` (and always keeps index 0). -/
def filterPermsAux (seen : List Word) : List Word → List Word
  | [] => []
  | w :: rest =>
      if containsPermFast w seen then filterPermsAux (seen ++ [w]) rest
      else w :: filterPermsAux (seen ++ [w]) rest

/-- `filterPermsFast` from filters.py fused with the mask application
`words[mask]` in `getSymbolicWords`. -/
def filterPermsFast (ws : List Word) : List Word :=
  filterPermsAux [] ws

/-- `isCyclRedFast` from filters.py: `adj[word[n-1]][word[0]]`. -/
def isCyclRedFast (adj : Nat → Nat → Bool) (w : Word) : Bool :=
  adj (w.getLastD 0) (w.headD 0)

/-- `isPeriodicFast` from filters.py: `word[0] == word[n-1]`. -/
def isPeriodicFast (w : Word) : Bool :=
  w.headD 0 == w.getLastD 0

/-! ### Word extension from a given batch (filters.py: appendWordsFast),
modelled at the level of its preallocated buffer, because the buffer
content (rows initialised to the uint8 value 255 = -1 that are never
overwritten) is observable in the returned array when the given batch is
not the complete batch of its length. -/

/-- A buffer row of `n` cells holding the fill value `np.full(..., -1,
dtype=uint8)` = 255. -/
def padRow (n : Nat) : List Nat :=
  List.replicate n 255

/-- The write `result[pos][k] = word[k] for k < length; result[pos][length]
= letter` into the existing row `old`: columns above `length` keep their
previous content. -/
def overwriteRow (old src : List Nat) (len letter : Nat) : List Nat :=
  src.take len ++ letter :: old.drop (len + 1)

/-- One iteration of the `for length in range(givenWordLen, n)` loop of
`appendWordsFast`: read the first `wordNum` buffer rows (`tmp`), extend
each by the letters reachable from its column `length-1`, and write the
extensions sequentially from position 0.  (Reads and writes beyond the
buffer are undefined behaviour in the numba original; here reads are
truncated and writes beyond the end are dropped.) -/
def appendStage (m : Nat) (adj : Nat → Nat → Bool) (len wordNum : Nat)
    (buffer : List (List Nat)) : List (List Nat) :=
  let pairs := (buffer.take wordNum).flatMap
    (fun w => (adjRow m adj (w.getD (len - 1) 255)).map (fun letter => (w, letter)))
  List.zipWith (fun old p => overwriteRow old p.1 len p.2) buffer pairs
    ++ buffer.drop pairs.length

/-- The stage loop of `appendWordsFast`, from column count `len` up to the
target length: at each stage the row count read back is
`np.sum(adj^(len-1))`, the number of admissible words of length `len`. -/
def appendGo (m : Nat) (adj : Nat → Nat → Bool) :
    Nat → Nat → List (List Nat) → List (List Nat)
  | 0, _, buffer => buffer
  | steps + 1, len, buffer =>
      appendGo m adj steps (len + 1)
        (appendStage m adj len (matTotal m (adjPow m adj (len - 1))) buffer)

/-- `words.shape[1]`: the column count of a uniform batch. -/
def wordCols (ws : List (List Nat)) : Nat :=
  (ws.headD []).length

/-- Row `i` of the freshly initialised `appendWordsFast` buffer: a given
word padded to full width when `i` is below the given word count, a pure
255-row otherwise. -/
def bufRow (ws : List (List Nat)) (padLen n i : Nat) : List Nat :=
  match ws.get? i with
  | some w => w ++ padRow padLen
  | none => padRow n

/-- `appendWordsFast(n, adj, words)` from filters.py: allocate
`np.sum(adj^(n-1))` rows filled with 255, copy the given words into the
leading rows (`result[:givenWordNum, :givenWordLen] = words`), then run
the extension stages from the given column count up to `n`.  The copy is
a sliced assignment: the destination slice clips to the buffer's
`np.sum(adj^(n-1))` rows and `n` columns, so when the given batch has
more rows than the buffer (or more columns than the target length) the
shapes mismatch and a broadcast ValueError is raised before any stage
runs. -/
def appendWordsFast (m : Nat) (adj : Nat → Nat → Bool) (n : Nat)
    (ws : List (List Nat)) : Except String (List (List Nat)) :=
  let k0 := wordCols ws
  let wordNumF := matTotal m (adjPow m adj (n - 1))
  if wordNumF < ws.length ∨ n < k0 then
    .error "ValueError: could not broadcast input array"
  else
    .ok (appendGo m adj (n - k0) k0
      ((List.range wordNumF).map (bufRow ws (n - k0) n)))

/-! ### SymbolicDynamics.getSymbolicWords and wordGenerator
(symbolic_dynamics.py) -/

/-- `if prime: words = words[isPrimeFast(words)]` in `getSymbolicWords`. -/
def primeStage (prime : Bool) (ws : List Word) : List Word :=
  if prime then ws.filter isPrimeFast else ws

/-- `if permFree: words = words[filterPermsFast(words)]`. -/
def permStage (permFree : Bool) (ws : List Word) : List Word :=
  if permFree then filterPermsFast ws else ws

/-- `if cyclRed: words = words[isCyclRedFast(words, adj)]`. -/
def cyclStage (adj : Nat → Nat → Bool) (cyclRed : Bool) (ws : List Word) :
    List Word :=
  if cyclRed then ws.filter (isCyclRedFast adj) else ws

/-- `if periodic: words = words[isPeriodicFast(words)]`. -/
def periodicStage (periodic : Bool) (ws : List Word) : List Word :=
  if periodic then ws.filter isPeriodicFast else ws

/-- The filter cascade of `getSymbolicWords`: prime, then permutation-free,
then cyclically-reduced, then periodic, each applied as a mask on the
current batch. -/
def applyFilters (adj : Nat → Nat → Bool)
    (prime permFree cyclRed periodic : Bool) (ws : List Word) : List Word :=
  periodicStage periodic
    (cyclStage adj cyclRed (permStage permFree (primeStage prime ws)))

/-- `SymbolicDynamics.getSymbolicWords`: without `givenWords` it generates
from scratch; with `givenWords` it raises a ValueError when the given
batch is longer than the target, passes the batch through unchanged (up to
the uint8 astype) when the lengths agree, and extends via
`appendWordsFast` otherwise.  The filters run on the outcome. -/
def getSymbolicWords (m : Nat) (adj : Nat → Nat → Bool) (wordLength : Nat)
    (givenWords : Option (List Word))
    (prime permFree cyclRed periodic : Bool) : Except String (List Word) :=
  match givenWords with
  | none =>
      .ok (applyFilters adj prime permFree cyclRed periodic
            (getWordsFast m adj wordLength))
  | some ws =>
      if wordLength < wordCols ws then
        .error "ValueError: cannot append words to words of shorter length"
      else if wordCols ws = wordLength then
        .ok (applyFilters adj prime permFree cyclRed periodic ws)
      else
        match appendWordsFast m adj wordLength ws with
        | .ok out => .ok (applyFilters adj prime permFree cyclRed periodic out)
        | .error e => .error e

/-- The yield loop of `SymbolicDynamics.wordGenerator`: at the current
length, yield `getSymbolicWords` on the running unfiltered superset batch
(whose column count equals the current length, so the equal-length branch
applies and no error can occur; that `.error` fallback is dead code),
then extend the superset with `appendWordsFast` for the next length.  If
the extension raises, the exception propagates to the consumer and no
further batch is produced, modelled by ending the stream; when the
superset is the complete batch of its length and every letter has a
successor this branch is unreachable (`appendWordsFast_complete`). -/
def wordGenStream (m : Nat) (adj : Nat → Nat → Bool)
    (prime permFree cyclRed : Bool) :
    Nat → Nat → List Word → List (List Word)
  | 0, _, _ => []
  | steps + 1, curLen, als =>
      (match getSymbolicWords m adj curLen (some als)
          prime permFree cyclRed false with
       | .ok ws => ws
       | .error _ => []) ::
      (match appendWordsFast m adj (curLen + 1) als with
       | .ok next =>
          wordGenStream m adj prime permFree cyclRed steps (curLen + 1) next
       | .error _ => [])

/-- `SymbolicDynamics.wordGenerator(maxWordLength, prime, permFree,
cyclRed)`: returns immediately when `maxWordLength < 1`, else yields one
filtered batch per length 1..maxWordLength.  (The trivial symmetry-element
placeholder yielded alongside each batch is omitted.) -/
def wordGenerator (m : Nat) (adj : Nat → Nat → Bool) (maxWordLength : Int)
    (prime permFree cyclRed : Bool) : List (List Word) :=
  if maxWordLength < 1 then []
  else
    wordGenStream m adj prime permFree cyclRed maxWordLength.toNat 1
      (getWordsFast m adj 1)

/-! ### Per-evaluator cache (wzeta.py: WeightedZeta._initMapSystemData).
The external providers are abstracted as functions `fs` (getStabilities)
and `fi` (getOrbitIntegrals) from a word batch to an opaque array value. -/

/-- The cache slots of a `WeightedZeta` instance. -/
structure WZState (σ ι : Type) where
  statusStab : Nat
  statusInt : Nat
  wordArrs : List (List Word)
  stabilityArrs : List σ
  integralArrs : List ι
  deriving DecidableEq

/-- `WeightedZeta._initMapSystemData(nMax, initIntegrals)`: early-return
when the recorded coverage for the requested data reaches `nMax`;
otherwise clear all three lists and refill them from the cyclically-reduced
word generator.  `_initStatusIntegrals` is assigned inside the loop body
(only when integrals are requested and at least one batch is produced),
`_initStatusStabilities` afterwards unconditionally. -/
def initMapSystemData {σ ι : Type} (m : Nat) (adj : Nat → Nat → Bool)
    (fs : List Word → σ) (fi : List Word → ι)
    (st : WZState σ ι) (nMax : Nat) (initIntegrals : Bool) : WZState σ ι :=
  if initIntegrals = false ∧ nMax ≤ st.statusStab then st
  else if initIntegrals = true ∧ nMax ≤ st.statusInt then st
  else
    let batches := wordGenerator m adj (nMax : Int) false false true
    { statusStab := nMax
      statusInt := if initIntegrals = true ∧ batches ≠ [] then nMax else st.statusInt
      wordArrs := batches
      stabilityArrs := batches.map fs
      integralArrs := if initIntegrals then batches.map fi else [] }

/-- The empty cache a fresh evaluator starts with. -/
def initialWZState (σ ι : Type) : WZState σ ι :=
  ⟨0, 0, [], [], []⟩

/-! ### The scalar cycle-expansion engine (bell_iteration.py,
abstract_zeta.py, selberg_zeta.py) -/

/-- `bellIteration` from bell_iteration.py, per evaluation point: the row
`dArr[:, n]` as a function of the per-length coefficient slots
`a j = aArr[:, j]`.  The imperative loop fills rows in increasing `n`,
reading only strictly smaller rows, so it computes exactly this
recursion. -/
noncomputable def bellD (a : Nat → ℂ) : Nat → ℂ
  | 0 => 1
  | n + 1 =>
      (1 / ((n + 1 : Nat) : ℂ)) *
        ∑ k ∈ Finset.range (n + 1),
          ((k + 1 : Nat) : ℂ) * bellD a (n - k) * a k

/-- The data a `SelbergZeta` instance draws from its function system: the
alphabet size and adjacency matrix of the underlying symbolic dynamics,
and the per-word stability returned by `getStabilities`. -/
structure ScalarSystem where
  m : Nat
  adj : Nat → Nat → Bool
  stab : Word → ℝ

/-- The batch of words `SelbergZeta`/`WeightedZeta` caches for word length
`j + 1`: slot `j` of `wordGenerator(maxWordLength=nMax, cyclRed=True)`. -/
def wgBatch (m : Nat) (adj : Nat → Nat → Bool) (nMax : Nat) (j : Nat) :
    List Word :=
  (wordGenerator m adj (nMax : Int) false false true).getD j []

/-- `SelbergZeta.calcA` slot `j = n - 1`, per evaluation point `s`:
`aArr[:, n-1] = -(1/n) * Σ_w stab(w)^s / (1 - stab(w))` over the cached
cyclically-reduced batch of length `n`; `np.power(stab, s,
dtype=complex)` is the principal complex power. -/
noncomputable def selbergAslot (S : ScalarSystem) (nMax : Nat) (s : ℂ)
    (j : Nat) : ℂ :=
  (-1 / ((j + 1 : Nat) : ℂ)) *
    ((wgBatch S.m S.adj nMax j).map
      (fun w => ((S.stab w : ℂ) ^ s) / (1 - (S.stab w : ℂ)))).sum

/-- `AbstractZeta.__call__(s, nMax)` by way of `calcD` and
`bellIteration`: for each entry of `s`, the sum of the Bell rows
0..nMax.  `np.empty((sSize, nMax))` in `calcA` raises a ValueError for a
negative `nMax` before anything else happens. -/
noncomputable def selbergEval (S : ScalarSystem) (s : List ℂ) (nMax : Int) :
    Except String (List ℂ) :=
  if nMax < 0 then .error "ValueError: negative dimensions are not allowed"
  else
    .ok (s.map (fun z =>
      ∑ n ∈ Finset.range (nMax.toNat + 1), bellD (selbergAslot S nMax.toNat z) n))

/-! ### The weighted cycle-expansion engine (abstract_wzeta.py, wzeta.py).
The s-axis and the two orbit-integral grid axes of the numpy arrays are
elementwise throughout the recursion, so the embedding fixes one
evaluation point `s` and one grid cell and tracks the remaining axes
`(n, d, channel)`. -/

/-- The data a `WeightedZeta` instance draws from its hyperbolic map
system, at one fixed orbit-integral grid cell: the symbolic dynamics, the
contracting/expanding stability pair of each word, and the word's orbit
integral value at that cell. -/
structure WSystem where
  m : Nat
  adj : Nat → Nat → Bool
  stab1 : Word → ℝ
  stab2 : Word → ℝ
  integ : Word → ℝ

/-- `WeightedZeta.calcA` slot `j = n - 1`:
`-(1/n) * Σ_w stab1(w)^s / ((1 - stab1(w)) * (stab2(w) - 1))`. -/
noncomputable def weightedCalcAslot (W : WSystem) (nMax : Nat) (s : ℂ)
    (j : Nat) : ℂ :=
  (-1 / ((j + 1 : Nat) : ℂ)) *
    ((wgBatch W.m W.adj nMax j).map
      (fun w => ((W.stab1 w : ℂ) ^ s) /
        ((1 - (W.stab1 w : ℂ)) * ((W.stab2 w : ℂ) - 1)))).sum

/-- `WeightedZeta.calcWeightedA` entry `afArr[:, j, d, c, cell]`: channel 0
sums `tmp = log(stab1)^d * stab1^s / ((1-stab1)*(stab2-1))` over the
length-(j+1) batch, channel 1 sums `-integrals * tmp`; the whole slot is
then scaled by `-1/(j+1)`. -/
noncomputable def calcWeightedAEntry (W : WSystem) (nMax : Nat) (s : ℂ)
    (j d : Nat) (c : Bool) : ℂ :=
  (-1 / ((j + 1 : Nat) : ℂ)) *
    ((wgBatch W.m W.adj nMax j).map
      (fun w =>
        (if c then -(W.integ w : ℂ) else 1) *
          (((Real.log (W.stab1 w) : ℂ)) ^ d * ((W.stab1 w : ℂ) ^ s) /
            ((1 - (W.stab1 w : ℂ)) * ((W.stab2 w : ℂ) - 1))))).sum

/-- The induction documented for `calcWeightedD` (and stated in the spec),
with the allocation slip of the implementation repaired: the coefficient
table has rows for every order n = 0..nMax, basis `d[0,0,0] = 1` and 0
elsewhere at n = 0, and the binomial/two-channel recursion above it.
Channel `false` is channel 0, channel `true` is channel 1; the sum over
`k ∈ range (n+1)` below enumerates the loop variable `k+1 ∈ 1..n+1`. -/
noncomputable def calcWeightedDFix (af : Nat → Nat → Bool → ℂ) :
    Nat → Nat → Bool → ℂ
  | 0, d, c => if d = 0 ∧ c = false then 1 else 0
  | n + 1, d, c =>
      ∑ k ∈ Finset.range (n + 1), ∑ j ∈ Finset.range (d + 1),
        (((k + 1 : Nat) : ℂ) / ((n + 1 : Nat) : ℂ)) * ((d.choose j : Nat) : ℂ) *
          (if c then
            calcWeightedDFix af (n - k) j true * af k (d - j) false +
              calcWeightedDFix af (n - k) j false * af k (d - j) true
          else
            calcWeightedDFix af (n - k) j false * af k (d - j) false)
  termination_by n => n
  decreasing_by
    all_goals exact Nat.lt_succ_of_le (Nat.sub_le n k)

/-! #### The faithful, bounds-checked model of
`AbstractWeightedZeta.calcWeightedD`.  `dfArr = np.zeros_like(afArr)` has
shape `(len(s), nMax, dMax+1, 2, grid)` — only `nMax` rows on the order
axis — while the loop `for n in range(1, nMax + 1)` writes row `nMax`,
and the basis writes row 0.  Rows are modelled as functions of `(d,
channel)`, and every numpy index into the order axis is bounds-checked. -/

/-- Bounds-checked numpy read along the order axis. -/
def getRow {α : Type} (t : List α) (i : Nat) : Except String α :=
  match t.get? i with
  | some x => .ok x
  | none => .error "IndexError"

/-- Bounds-checked numpy write along the order axis. -/
def setRow {α : Type} (t : List α) (i : Nat) (x : α) : Except String (List α) :=
  if i < t.length then .ok (t.set i x) else .error "IndexError"

/-- The accumulated content of row `n` after the `k`/`d`/`m` loops of one
`n`-iteration of `calcWeightedD`, as a function of the row's previous
content `old` and the table `t` of lower rows: the double sum over
`k = 1..n` and `m = 0..d` is added for every derivative order `d ≤ dMax`
and both channels; components with `d > dMax` do not exist in the numpy
array and stay untouched.  Rows `n - k` with `k ≥ 1` are strictly below
`n` and always in bounds, so they are read with a defaulted access. -/
noncomputable def wdNewRow (af : Nat → Nat → Bool → ℂ) (dMax n : Nat)
    (t : List (Nat → Bool → ℂ)) (old : Nat → Bool → ℂ) :
    Nat → Bool → ℂ := fun d c =>
  if d ≤ dMax then
    old d c +
      ∑ k ∈ Finset.range n, ∑ j ∈ Finset.range (d + 1),
        (((k + 1 : Nat) : ℂ) / ((n : Nat) : ℂ)) * ((d.choose j : Nat) : ℂ) *
          (if c then
            (t.getD (n - (k + 1)) (fun _ _ => 0)) j true * af k (d - j) false +
              (t.getD (n - (k + 1)) (fun _ _ => 0)) j false * af k (d - j) true
          else
            (t.getD (n - (k + 1)) (fun _ _ => 0)) j false * af k (d - j) false)
  else old d c

/-- The body of the `for n in range(1, nMax + 1)` loop of `calcWeightedD`:
read row `n`, accumulate into it, write it back.  Both the read and the
write bounds-check the order axis. -/
noncomputable def wdStep (af : Nat → Nat → Bool → ℂ) (dMax n : Nat)
    (t : List (Nat → Bool → ℂ)) : Except String (List (Nat → Bool → ℂ)) := do
  let old ← getRow t n
  setRow t n (wdNewRow af dMax n t old)

/-- The loop driver of `calcWeightedD`, iterating `wdStep` for `steps`
values of `n` starting at the given one. -/
noncomputable def wdGo (af : Nat → Nat → Bool → ℂ) (dMax : Nat) :
    Nat → Nat → List (Nat → Bool → ℂ) → Except String (List (Nat → Bool → ℂ))
  | 0, _, t => .ok t
  | steps + 1, n, t => do
      let t' ← wdStep af dMax n t
      wdGo af dMax steps (n + 1) t'

/-- `AbstractWeightedZeta.calcWeightedD(s, nMax, dMax)` at one evaluation
point and grid cell, with its true allocation: `nMax` rows, the basis
writes `dfArr[:, 0, :, :] = 0; dfArr[:, 0, 0, 0] = 1`, then the loop over
n = 1..nMax. -/
noncomputable def calcWeightedD (af : Nat → Nat → Bool → ℂ)
    (nMax dMax : Nat) : Except String (List (Nat → Bool → ℂ)) := do
  let t0 : List (Nat → Bool → ℂ) := List.replicate nMax (fun _ _ => 0)
  let z ← getRow t0 0
  let t1 ← setRow t0 0 (fun d c => if d = 0 ∧ c = false then 1 else z d c)
  wdGo af dMax nMax 1 t1

/-- `AbstractWeightedZeta.calcDynamicalDeterminant`: sum the weighted
coefficient table over the order axis. -/
noncomputable def calcDynamicalDeterminant (af : Nat → Nat → Bool → ℂ)
    (nMax dMax : Nat) : Except String (Nat → Bool → ℂ) := do
  let t ← calcWeightedD af nMax dMax
  .ok (fun d c => (t.map (fun row => row d c)).sum)

/-! ### Structure of `allWords` -/

theorem mem_allWords (m : Nat) :
    ∀ (n : Nat) (w : Word),
      w ∈ allWords m n ↔ (w.length = n ∧ ∀ a ∈ w, a < m)
  | 0, w => by
      simp only [allWords, List.mem_singleton]
      constructor
      · rintro rfl; simp
      · rintro ⟨h, -⟩; exact List.eq_nil_of_length_eq_zero h
  | n + 1, w => by
      simp only [allWords, List.mem_flatMap, List.mem_map, List.mem_range]
      constructor
      · rintro ⟨v, hv, j, hj, rfl⟩
        obtain ⟨hlen, hmem⟩ := (mem_allWords m n v).1 hv
        refine ⟨by simp [hlen], ?_⟩
        intro a ha
        rcases List.mem_append.1 ha with h | h
        · exact hmem a h
        · rw [List.mem_singleton.1 h]; exact hj
      · rintro ⟨hlen, hmem⟩
        have hw : w ≠ [] := by
          intro h; rw [h] at hlen; exact Nat.succ_ne_zero n hlen.symm
        refine ⟨w.dropLast, ?_, w.getLast hw, ?_, ?_⟩
        · refine (mem_allWords m n w.dropLast).2 ⟨?_, ?_⟩
          · simp [hlen, List.length_dropLast w]
          · exact fun a ha => hmem a (List.dropLast_sublist w |>.mem ha)
        · exact hmem _ (List.getLast_mem hw)
        · exact List.dropLast_concat_getLast hw

theorem allWords_nodup (m : Nat) : ∀ n : Nat, (allWords m n).Nodup
  | 0 => by simp [allWords]
  | n + 1 => by
      rw [allWords, List.nodup_flatMap]
      constructor
      · intro v _
        refine (List.nodup_range m).map ?_
        intro a b h
        have := List.append_inj_right' h (by rfl)
        simpa using this
      · have hw := allWords_nodup m n
        refine hw.imp ?_
        intro v₁ v₂ hne w h₁ h₂
        obtain ⟨j₁, -, rfl⟩ := List.mem_map.1 h₁
        obtain ⟨j₂, -, h⟩ := List.mem_map.1 h₂
        exact hne (List.append_inj_left' h.symm (by rfl))

theorem length_allWords (m : Nat) : ∀ n : Nat, (allWords m n).length = m ^ n
  | 0 => by simp [allWords]
  | n + 1 => by
      rw [allWords, List.length_flatMap]
      simp only [Function.comp_def, List.length_map, List.length_range]
      rw [List.map_const', List.sum_replicate, smul_eq_mul,
        length_allWords m n, pow_succ]

/-! ### Structure of `admissible` -/

theorem getLastD_irrel {l : List Nat} (hl : l ≠ []) (d₁ d₂ : Nat) :
    l.getLastD d₁ = l.getLastD d₂ := by
  rw [List.getLastD_eq_getLast?, List.getLastD_eq_getLast?,
    List.getLast?_eq_getLast l hl]
  rfl

theorem admissible_concat (adj : Nat → Nat → Bool) :
    ∀ (w : Word), w ≠ [] → ∀ j : Nat,
      admissible adj (w ++ [j]) = (admissible adj w && adj (w.getLastD 0) j)
  | [], hw, _ => absurd rfl hw
  | [a], _, j => by simp [admissible]
  | a :: b :: t, _, j => by
      have ih := admissible_concat adj (b :: t) (List.cons_ne_nil b t) j
      have h1 : admissible adj ((a :: b :: t) ++ [j])
          = (adj a b && admissible adj ((b :: t) ++ [j])) := rfl
      have h2 : admissible adj (a :: b :: t)
          = (adj a b && admissible adj (b :: t)) := rfl
      have h3 : (a :: b :: t).getLastD 0 = (b :: t).getLastD 0 := by
        rw [List.getLastD_cons, getLastD_irrel (List.cons_ne_nil b t)]
      rw [h1, ih, h2, h3, Bool.and_assoc]

theorem admissible_singleton (adj : Nat → Nat → Bool) (a : Nat) :
    admissible adj [a] = true := rfl

/-! ### `getWordsFast` equals the admissibility filter of the lexicographic
enumeration -/

theorem getWordsFast_zero (m : Nat) (adj : Nat → Nat → Bool) :
    getWordsFast m adj 0 = List.replicate m [] := by
  unfold getWordsFast
  rw [if_pos rfl]

theorem getWordsFast_one (m : Nat) (adj : Nat → Nat → Bool) :
    getWordsFast m adj 1 = singletonWords m := by
  unfold getWordsFast
  rw [if_neg (by omega)]
  rfl

theorem getWordsFast_succ (m : Nat) (adj : Nat → Nat → Bool) (n : Nat)
    (hn : 1 ≤ n) :
    getWordsFast m adj (n + 1) = extendStep m adj (getWordsFast m adj n) := by
  unfold getWordsFast
  rw [if_neg (by omega), if_neg (by omega)]
  obtain ⟨k, rfl⟩ := Nat.exists_eq_add_of_le hn
  rw [show 1 + k + 1 - 1 = (1 + k - 1) + 1 by omega,
    Function.iterate_succ_apply']

theorem allWords_one (m : Nat) : allWords m 1 = singletonWords m := by
  simp [allWords, singletonWords]

theorem mem_allWords_ne_nil {m n : Nat} {w : Word} (hn : 1 ≤ n)
    (hw : w ∈ allWords m n) : w ≠ [] := by
  obtain ⟨hlen, -⟩ := (mem_allWords m n w).1 hw
  intro h
  subst h
  simp at hlen
  omega

theorem getLastD_mem {w : Word} (hw : w ≠ []) : w.getLastD 0 ∈ w := by
  rw [List.getLastD_eq_getLast?, List.getLast?_eq_getLast w hw]
  exact List.getLast_mem hw

theorem flatMap_of_filter {α β : Type} (p : α → Bool) (g : α → List β) :
    ∀ l : List α,
      (l.filter p).flatMap g = l.flatMap (fun a => if p a then g a else [])
  | [] => rfl
  | a :: l => by
      by_cases h : p a <;>
        simp [List.filter_cons, h, flatMap_of_filter p g l]

theorem flatMap_congr_mem {α β : Type} {l : List α} {f g : α → List β}
    (h : ∀ a ∈ l, f a = g a) : l.flatMap f = l.flatMap g := by
  induction l with
  | nil => rfl
  | cons a l ih =>
      simp only [List.flatMap_cons, h a (List.mem_cons_self a l),
        ih fun b hb => h b (List.mem_cons_of_mem a hb)]

theorem getWordsFast_eq_filter (m : Nat) (adj : Nat → Nat → Bool) :
    ∀ n : Nat, 1 ≤ n →
      getWordsFast m adj n = (allWords m n).filter (admissible adj)
  | 0, h => absurd h (by omega)
  | 1, _ => by
      rw [getWordsFast_one, allWords_one]
      rw [List.filter_eq_self.2]
      intro w hw
      obtain ⟨i, -, rfl⟩ := List.mem_map.1 hw
      rfl
  | n + 2, _ => by
      rw [getWordsFast_succ m adj (n + 1) (by omega),
        getWordsFast_eq_filter m adj (n + 1) (by omega)]
      show extendStep m adj ((allWords m (n + 1)).filter (admissible adj))
          = ((allWords m (n + 1)).flatMap
              (fun w => (List.range m).map (fun j => w ++ [j]))).filter
                (admissible adj)
      rw [List.filter_flatMap, extendStep,
        flatMap_of_filter (admissible adj)
          (fun w => (adjRow m adj (w.getLastD 0)).map (fun j => w ++ [j]))]
      refine flatMap_congr_mem ?_
      intro w hw
      have hwne : w ≠ [] := mem_allWords_ne_nil (by omega) hw
      have hlt : w.getLastD 0 < m :=
        ((mem_allWords m (n + 1) w).1 hw).2 _ (getLastD_mem hwne)
      rw [List.filter_map]
      have hfilt : (List.range m).filter
            ((admissible adj) ∘ (fun j => w ++ [j]))
          = (List.range m).filter
              (fun j => admissible adj w && adj (w.getLastD 0) j) := by
        apply List.filter_congr
        intro j _
        exact admissible_concat adj w hwne j
      rw [hfilt]
      by_cases hadm : admissible adj w
      · rw [if_pos hadm, adjRow, if_pos hlt]
        congr 1
        apply List.filter_congr
        intro j _
        rw [hadm, Bool.true_and]
      · rw [if_neg hadm]
        have : (fun j => admissible adj w && adj (w.getLastD 0) j)
            = fun _ => false := by
          funext j
          rw [Bool.eq_false_iff.2 hadm, Bool.false_and]
        rw [this]
        simp

/-! ### Word counting: the batch size equals the total of the adjacency
power, the quantity `np.sum(adjPower)` the source uses to size its
buffers. -/

/-- Number of words in a batch ending in the letter `j`. -/
def endCount (ws : List Word) (j : Nat) : Nat :=
  ws.countP (fun w => w.getLastD 0 == j)

theorem count_adjRow (m : Nat) (adj : Nat → Nat → Bool) (r j : Nat)
    (hr : r < m) (hj : j < m) :
    (adjRow m adj r).count j = adjInd adj r j := by
  unfold adjRow adjInd
  rw [if_pos hr]
  have hnd : ((List.range m).filter (fun i => adj r i)).Nodup :=
    (List.nodup_range m).filter _
  by_cases ha : adj r j
  · rw [if_pos ha]
    refine List.count_eq_one_of_mem hnd ?_
    rw [List.mem_filter, List.mem_range]
    exact ⟨hj, ha⟩
  · rw [if_neg ha]
    refine List.count_eq_zero_of_not_mem ?_
    rw [List.mem_filter]
    rintro ⟨-, h⟩
    exact ha h

theorem endCount_append (l1 l2 : List Word) (j : Nat) :
    endCount (l1 ++ l2) j = endCount l1 j + endCount l2 j :=
  List.countP_append _ l1 l2

theorem endCount_cons (w : Word) (ws : List Word) (j : Nat) :
    endCount (w :: ws) j
      = endCount ws j + (if w.getLastD 0 = j then 1 else 0) := by
  unfold endCount
  rw [List.countP_cons]
  congr 1
  simp [beq_iff_eq]

theorem endCount_extendStep (m : Nat) (adj : Nat → Nat → Bool)
    (ws : List Word) (hws : ∀ w ∈ ws, w.getLastD 0 < m) (j : Nat)
    (hj : j < m) :
    endCount (extendStep m adj ws) j
      = ∑ r ∈ Finset.range m, endCount ws r * adjInd adj r j := by
  induction ws with
  | nil => simp [extendStep, endCount]
  | cons w ws ih =>
      have hw0 : w.getLastD 0 < m := hws w (List.mem_cons_self w ws)
      have hcount : endCount
          ((adjRow m adj (w.getLastD 0)).map (fun j => w ++ [j])) j
          = adjInd adj (w.getLastD 0) j := by
        show List.countP _ _ = _
        rw [List.countP_map]
        have : ((fun v : Word => v.getLastD 0 == j) ∘ fun a => w ++ [a])
            = fun a => a == j := by
          funext a
          simp [List.getLastD_concat]
        rw [this]
        show (adjRow m adj (w.getLastD 0)).count j = _
        exact count_adjRow m adj _ j hw0 hj
      have hsplit : extendStep m adj (w :: ws)
          = (adjRow m adj (w.getLastD 0)).map (fun j => w ++ [j])
            ++ extendStep m adj ws := by
        simp [extendStep]
      rw [hsplit, endCount_append]
      rw [hcount, ih (fun v hv => hws v (List.mem_cons_of_mem w hv))]
      have hsum : ∑ r ∈ Finset.range m, endCount (w :: ws) r * adjInd adj r j
          = ∑ r ∈ Finset.range m,
              (endCount ws r * adjInd adj r j
                + (if w.getLastD 0 = r then 1 else 0) * adjInd adj r j) := by
        refine Finset.sum_congr rfl ?_
        intro r _
        rw [endCount_cons, Nat.add_mul]
      rw [hsum, Finset.sum_add_distrib]
      have hpick : ∑ r ∈ Finset.range m,
          (if w.getLastD 0 = r then 1 else 0) * adjInd adj r j
          = adjInd adj (w.getLastD 0) j := by
        rw [Finset.sum_eq_single (w.getLastD 0)]
        · rw [if_pos rfl, Nat.one_mul]
        · intro r _ hr
          rw [if_neg (Ne.symm hr), Nat.zero_mul]
        · intro h
          exact absurd (Finset.mem_range.2 hw0) h
      rw [hpick, Nat.add_comm]

theorem length_eq_sum_endCount (m : Nat) (ws : List Word)
    (hws : ∀ w ∈ ws, w.getLastD 0 < m) :
    ws.length = ∑ j ∈ Finset.range m, endCount ws j := by
  induction ws with
  | nil => simp [endCount]
  | cons w ws ih =>
      have hw0 : w.getLastD 0 < m := hws w (List.mem_cons_self w ws)
      simp only [List.length_cons, endCount_cons, Finset.sum_add_distrib]
      rw [← ih (fun v hv => hws v (List.mem_cons_of_mem w hv))]
      rw [Finset.sum_ite_eq (Finset.range m) (w.getLastD 0) (fun _ => 1)]
      rw [if_pos (Finset.mem_range.2 hw0)]

theorem getWordsFast_shape (m : Nat) (adj : Nat → Nat → Bool) (n : Nat)
    (hn : 1 ≤ n) (w : Word) (hw : w ∈ getWordsFast m adj n) :
    w.length = n ∧ ∀ a ∈ w, a < m := by
  rw [getWordsFast_eq_filter m adj n hn] at hw
  exact (mem_allWords m n w).1 (List.mem_of_mem_filter hw)

theorem getWordsFast_lastLt (m : Nat) (adj : Nat → Nat → Bool) (n : Nat)
    (hn : 1 ≤ n) (w : Word) (hw : w ∈ getWordsFast m adj n) :
    w.getLastD 0 < m := by
  obtain ⟨hlen, hmem⟩ := getWordsFast_shape m adj n hn w hw
  have hne : w ≠ [] := by
    intro h; subst h; simp at hlen; omega
  exact hmem _ (getLastD_mem hne)

theorem endCount_getWordsFast (m : Nat) (adj : Nat → Nat → Bool) :
    ∀ n : Nat, 1 ≤ n → ∀ j : Nat, j < m →
      endCount (getWordsFast m adj n) j
        = ∑ i ∈ Finset.range m, adjPow m adj (n - 1) i j
  | 0, h => absurd h (by omega)
  | 1, _ => by
      intro j hj
      show endCount (singletonWords m) j = ∑ i ∈ Finset.range m, matId i j
      have h1 : endCount (singletonWords m) j = (List.range m).count j := by
        show List.countP _ _ = _
        unfold singletonWords
        rw [List.countP_map]
        rfl
      rw [h1, List.count_eq_one_of_mem (List.nodup_range m) (List.mem_range.2 hj)]
      rw [Finset.sum_eq_single j]
      · rw [matId, if_pos rfl]
      · intro i _ hi
        rw [matId, if_neg hi]
      · intro h
        exact absurd (Finset.mem_range.2 hj) h
  | n + 2, _ => by
      intro j hj
      rw [getWordsFast_succ m adj (n + 1) (by omega)]
      rw [endCount_extendStep m adj _
        (fun w hw => getWordsFast_lastLt m adj (n + 1) (by omega) w hw) j hj]
      have ih := endCount_getWordsFast m adj (n + 1) (by omega)
      show _ = ∑ i ∈ Finset.range m, adjPow m adj (n + 1) i j
      have hpow : ∀ i, adjPow m adj (n + 1) i j
          = ∑ r ∈ Finset.range m, adjPow m adj n i r * adjInd adj r j := by
        intro i
        rfl
      simp only [hpow]
      rw [Finset.sum_comm]
      refine Finset.sum_congr rfl ?_
      intro r hr
      rw [ih r (Finset.mem_range.1 hr), ← Finset.sum_mul]
      rfl

theorem length_getWordsFast (m : Nat) (adj : Nat → Nat → Bool) (n : Nat)
    (hn : 1 ≤ n) :
    (getWordsFast m adj n).length = matTotal m (adjPow m adj (n - 1)) := by
  rw [length_eq_sum_endCount m _
    (fun w hw => getWordsFast_lastLt m adj n hn w hw)]
  rw [matTotal, Finset.sum_comm]
  refine Finset.sum_congr rfl ?_
  intro j hj
  exact endCount_getWordsFast m adj n hn j (Finset.mem_range.1 hj)


/-! ### `appendWordsFast` on a complete batch reproduces `getWordsFast`.
The buffer invariant: after the stage for column count `k`, the buffer
holds the padded length-(k+1) words in its leading rows and untouched
255-filled rows after them. -/

/-- The admissible word count `np.sum(adj^(L-1))` used to size buffers. -/
def wordNumAt (m : Nat) (adj : Nat → Nat → Bool) (L : Nat) : Nat :=
  matTotal m (adjPow m adj (L - 1))

/-- Description of the `appendWordsFast` buffer at column count `k`:
the complete length-k batch padded to width `n`, followed by untouched
255-rows. -/
def bufDesc (m : Nat) (adj : Nat → Nat → Bool) (n k : Nat) :
    List (List Nat) :=
  (getWordsFast m adj k).map (fun w => w ++ padRow (n - k))
    ++ List.replicate (wordNumAt m adj n - wordNumAt m adj k) (padRow n)

theorem adjRow_ne_nil (m : Nat) (adj : Nat → Nat → Bool)
    (hrow : ∀ i, i < m → ∃ j, j < m ∧ adj i j = true) (r : Nat)
    (hr : r < m) : adjRow m adj r ≠ [] := by
  obtain ⟨j, hj, hadj⟩ := hrow r hr
  have : j ∈ adjRow m adj r := by
    unfold adjRow
    rw [if_pos hr, List.mem_filter, List.mem_range]
    exact ⟨hj, hadj⟩
  exact List.ne_nil_of_mem this

theorem length_le_length_extendStep (m : Nat) (adj : Nat → Nat → Bool)
    (hrow : ∀ i, i < m → ∃ j, j < m ∧ adj i j = true) (ws : List Word)
    (hws : ∀ w ∈ ws, w.getLastD 0 < m) :
    ws.length ≤ (extendStep m adj ws).length := by
  induction ws with
  | nil => simp [extendStep]
  | cons w ws ih =>
      have hsplit : extendStep m adj (w :: ws)
          = (adjRow m adj (w.getLastD 0)).map (fun j => w ++ [j])
            ++ extendStep m adj ws := by
        simp [extendStep]
      rw [hsplit, List.length_append, List.length_map, List.length_cons]
      have h1 : 1 ≤ (adjRow m adj (w.getLastD 0)).length :=
        List.length_pos_of_ne_nil
          (adjRow_ne_nil m adj hrow _ (hws w (List.mem_cons_self w ws)))
      have h2 := ih (fun v hv => hws v (List.mem_cons_of_mem w hv))
      omega

theorem length_getWordsFast_mono (m : Nat) (adj : Nat → Nat → Bool)
    (hrow : ∀ i, i < m → ∃ j, j < m ∧ adj i j = true) (k : Nat)
    (hk : 1 ≤ k) :
    ∀ n : Nat, k ≤ n →
      (getWordsFast m adj k).length ≤ (getWordsFast m adj n).length := by
  intro n
  induction n with
  | zero => intro h; omega
  | succ n ih =>
      intro h
      by_cases hkn : k = n + 1
      · subst hkn; exact Nat.le_refl _
      · have hkle : k ≤ n := by omega
        have hn1 : 1 ≤ n := by omega
        refine (ih hkle).trans ?_
        rw [getWordsFast_succ m adj n hn1]
        exact length_le_length_extendStep m adj hrow _
          (fun w hw => getWordsFast_lastLt m adj n hn1 w hw)

theorem length_getWordsFast_pos (m : Nat) (adj : Nat → Nat → Bool)
    (hm : 1 ≤ m)
    (hrow : ∀ i, i < m → ∃ j, j < m ∧ adj i j = true) (k : Nat)
    (hk : 1 ≤ k) : 1 ≤ (getWordsFast m adj k).length := by
  have h := length_getWordsFast_mono m adj hrow 1 (by omega) k hk
  have h1 : (getWordsFast m adj 1).length = m := by
    rw [getWordsFast_one]
    simp [singletonWords]
  omega

theorem wordCols_getWordsFast (m : Nat) (adj : Nat → Nat → Bool)
    (hm : 1 ≤ m)
    (hrow : ∀ i, i < m → ∃ j, j < m ∧ adj i j = true) (k : Nat)
    (hk : 1 ≤ k) : wordCols (getWordsFast m adj k) = k := by
  have hpos := length_getWordsFast_pos m adj hm hrow k hk
  rcases hws : getWordsFast m adj k with - | ⟨w, ws⟩
  · rw [hws] at hpos; simp at hpos
  · have hw : w ∈ getWordsFast m adj k := by
      rw [hws]; exact List.mem_cons_self w ws
    have := (getWordsFast_shape m adj k hk w hw).1
    simpa [wordCols] using this

theorem rangeMapBufRow (padLen n : Nat) :
    ∀ (ws : List (List Nat)) (N : Nat), ws.length ≤ N →
      (List.range N).map (bufRow ws padLen n)
        = ws.map (fun w => w ++ padRow padLen)
          ++ List.replicate (N - ws.length) (padRow n)
  | [], N, _ => by
      have : bufRow ([] : List (List Nat)) padLen n = fun _ => padRow n := by
        funext i
        rfl
      rw [this]
      simp [List.map_const']
  | w :: ws, N, h => by
      obtain ⟨N', rfl⟩ : ∃ N', N = N' + 1 := by
        rcases N with - | N'
        · simp at h
        · exact ⟨N', rfl⟩
      rw [List.range_succ_eq_map, List.map_cons, List.map_map]
      have hcomp : (bufRow (w :: ws) padLen n ∘ Nat.succ)
          = bufRow ws padLen n := by
        funext i
        rfl
      have hhead : bufRow (w :: ws) padLen n 0 = w ++ padRow padLen := rfl
      rw [hcomp, hhead, rangeMapBufRow padLen n ws N' (by simpa using h)]
      simp

theorem getD_pred_append (w pad : List Nat) (hw : w ≠ []) :
    (w ++ pad).getD (w.length - 1) 255 = w.getLastD 0 := by
  have hlt : w.length - 1 < w.length := by
    have := List.length_pos_of_ne_nil hw
    omega
  rw [List.getD_eq_getElem?_getD, List.getElem?_append_left hlt,
    ← List.getLast?_eq_getElem?, List.getLastD_eq_getLast?,
    List.getLast?_eq_getLast w hw]
  rfl

theorem zipWith_const {α β γ : Type} (f : α → β → γ) (g : β → γ) :
    ∀ (l1 : List α) (l2 : List β), (∀ a ∈ l1, ∀ b, f a b = g b) →
      List.zipWith f l1 l2 = (l2.take l1.length).map g
  | [], l2, _ => by simp
  | a :: l1, [], _ => by simp
  | a :: l1, b :: l2, h => by
      rw [List.zipWith_cons_cons, h a (List.mem_cons_self a l1) b]
      rw [zipWith_const f g l1 l2
        (fun x hx => h x (List.mem_cons_of_mem a hx))]
      simp

theorem drop_bufDesc (m : Nat) (adj : Nat → Nat → Bool) (n k : Nat)
    (hk : 1 ≤ k) (old : List Nat) (hold : old ∈ bufDesc m adj n k) :
    old.drop (k + 1) = padRow (n - (k + 1)) := by
  unfold bufDesc at hold
  rcases List.mem_append.1 hold with h | h
  · obtain ⟨w, hw, rfl⟩ := List.mem_map.1 h
    have hlen : w.length = k := (getWordsFast_shape m adj k hk w hw).1
    rw [List.drop_append_eq_append_drop, hlen,
      List.drop_eq_nil_of_le (by omega)]
    unfold padRow
    rw [List.drop_replicate, List.nil_append]
    congr 1
    omega
  · have : old = padRow n := List.eq_of_mem_replicate h
    subst this
    unfold padRow
    rw [List.drop_replicate]

theorem length_bufDesc (m : Nat) (adj : Nat → Nat → Bool) (n k : Nat)
    (hlen : (getWordsFast m adj k).length = wordNumAt m adj k)
    (hle : wordNumAt m adj k ≤ wordNumAt m adj n) :
    (bufDesc m adj n k).length = wordNumAt m adj n := by
  unfold bufDesc
  rw [List.length_append, List.length_map, List.length_replicate, hlen]
  omega

theorem wordNumAt_mono (m : Nat) (adj : Nat → Nat → Bool)
    (hrow : ∀ i, i < m → ∃ j, j < m ∧ adj i j = true) (k n : Nat)
    (hk : 1 ≤ k) (hkn : k ≤ n) :
    wordNumAt m adj k ≤ wordNumAt m adj n := by
  unfold wordNumAt
  rw [← length_getWordsFast m adj k hk, ← length_getWordsFast m adj n (by omega)]
  exact length_getWordsFast_mono m adj hrow k hk n hkn

theorem appendStage_bufDesc (m : Nat) (adj : Nat → Nat → Bool)
    (hrow : ∀ i, i < m → ∃ j, j < m ∧ adj i j = true) (n k : Nat)
    (hk : 1 ≤ k) (hkn : k + 1 ≤ n) :
    appendStage m adj k (wordNumAt m adj k) (bufDesc m adj n k)
      = bufDesc m adj n (k + 1) := by
  have hlenk : (getWordsFast m adj k).length = wordNumAt m adj k :=
    length_getWordsFast m adj k hk
  have hlenk1 : (getWordsFast m adj (k + 1)).length = wordNumAt m adj (k + 1) :=
    length_getWordsFast m adj (k + 1) (by omega)
  have hmono1 : wordNumAt m adj k ≤ wordNumAt m adj (k + 1) :=
    wordNumAt_mono m adj hrow k (k + 1) hk (by omega)
  have hmonon : wordNumAt m adj (k + 1) ≤ wordNumAt m adj n :=
    wordNumAt_mono m adj hrow (k + 1) n (by omega) hkn
  have hbuflen : (bufDesc m adj n k).length = wordNumAt m adj n :=
    length_bufDesc m adj n k hlenk (hmono1.trans hmonon)
  have hsucc : extendStep m adj (getWordsFast m adj k)
      = getWordsFast m adj (k + 1) :=
    (getWordsFast_succ m adj k hk).symm
  have htake : (bufDesc m adj n k).take (wordNumAt m adj k)
      = (getWordsFast m adj k).map (fun w => w ++ padRow (n - k)) := by
    unfold bufDesc
    exact List.take_left' (by rw [List.length_map, hlenk])
  simp only [appendStage, htake]
  rw [List.flatMap_map]
  have hpairs : (getWordsFast m adj k).flatMap
        (fun w => (adjRow m adj ((w ++ padRow (n - k)).getD (k - 1) 255)).map
          (fun letter => (w ++ padRow (n - k), letter)))
      = (getWordsFast m adj k).flatMap
          (fun w => (adjRow m adj (w.getLastD 0)).map
            (fun letter => (w ++ padRow (n - k), letter))) := by
    refine flatMap_congr_mem ?_
    intro w hw
    have hlen : w.length = k := (getWordsFast_shape m adj k hk w hw).1
    have hne : w ≠ [] := by
      intro h; subst h; simp at hlen; omega
    rw [show (k : Nat) - 1 = w.length - 1 by rw [hlen],
      getD_pred_append w _ hne]
  rw [hpairs]
  set pairs := (getWordsFast m adj k).flatMap
    (fun w => (adjRow m adj (w.getLastD 0)).map
      (fun letter => (w ++ padRow (n - k), letter))) with hpairsdef
  have hplen : pairs.length = wordNumAt m adj (k + 1) := by
    rw [← hlenk1, ← hsucc]
    rw [hpairsdef, List.length_flatMap, extendStep, List.length_flatMap]
    congr 1
    refine List.map_congr_left ?_
    intro w _
    simp [Function.comp]
  have hzip : List.zipWith
        (fun old p => overwriteRow old p.1 k p.2) (bufDesc m adj n k) pairs
      = pairs.map (fun p => p.1.take k ++ p.2 :: padRow (n - (k + 1))) := by
    rw [zipWith_const _ _ _ _ ?_]
    · rw [hbuflen, List.take_of_length_le (by omega)]
    · intro old hold p
      unfold overwriteRow
      rw [drop_bufDesc m adj n k hk old hold]
  rw [hzip]
  have hmapped : pairs.map (fun p => p.1.take k ++ p.2 :: padRow (n - (k + 1)))
      = (getWordsFast m adj (k + 1)).map
          (fun w => w ++ padRow (n - (k + 1))) := by
    rw [← hsucc, hpairsdef, List.map_flatMap, extendStep, List.map_flatMap]
    refine flatMap_congr_mem ?_
    intro w hw
    have hlen : w.length = k := (getWordsFast_shape m adj k hk w hw).1
    rw [List.map_map, List.map_map]
    refine List.map_congr_left ?_
    intro letter _
    show (w ++ padRow (n - k)).take k ++ letter :: padRow (n - (k + 1))
        = (w ++ [letter]) ++ padRow (n - (k + 1))
    rw [List.take_left' hlen, List.append_assoc]
    rfl
  have hdrop : (bufDesc m adj n k).drop pairs.length
      = List.replicate (wordNumAt m adj n - wordNumAt m adj (k + 1))
          (padRow n) := by
    rw [hplen]
    unfold bufDesc
    rw [List.drop_append_eq_append_drop,
      List.drop_eq_nil_of_le (by rw [List.length_map, hlenk]; omega),
      List.nil_append]
    unfold padRow
    rw [List.drop_replicate]
    congr 1
    rw [List.length_map, hlenk]
    omega
  rw [hmapped, hdrop]
  rfl

theorem appendGo_bufDesc (m : Nat) (adj : Nat → Nat → Bool)
    (hrow : ∀ i, i < m → ∃ j, j < m ∧ adj i j = true) :
    ∀ (s k : Nat), 1 ≤ k → ∀ n, k + s = n →
      appendGo m adj s k (bufDesc m adj n k) = bufDesc m adj n n
  | 0, k, _, n, h => by
      have : k = n := by omega
      subst this
      rfl
  | s + 1, k, hk, n, h => by
      show appendGo m adj s (k + 1)
          (appendStage m adj k (matTotal m (adjPow m adj (k - 1)))
            (bufDesc m adj n k)) = _
      have hstage := appendStage_bufDesc m adj hrow n k hk (by omega)
      rw [show matTotal m (adjPow m adj (k - 1)) = wordNumAt m adj k from rfl,
        hstage]
      exact appendGo_bufDesc m adj hrow s (k + 1) (by omega) n (by omega)

theorem bufDesc_self (m : Nat) (adj : Nat → Nat → Bool) (n : Nat) :
    bufDesc m adj n n = getWordsFast m adj n := by
  unfold bufDesc
  rw [Nat.sub_self, Nat.sub_self]
  show (getWordsFast m adj n).map (fun w => w ++ ([] : List Nat)) ++ [] = _
  rw [List.append_nil]
  calc (getWordsFast m adj n).map (fun w => w ++ ([] : List Nat))
      = (getWordsFast m adj n).map id :=
        List.map_congr_left (fun w _ => List.append_nil w)
    _ = getWordsFast m adj n := List.map_id _

theorem appendWordsFast_complete (m : Nat) (adj : Nat → Nat → Bool)
    (hm : 1 ≤ m)
    (hrow : ∀ i, i < m → ∃ j, j < m ∧ adj i j = true) (k n : Nat)
    (hk : 1 ≤ k) (hkn : k ≤ n) :
    appendWordsFast m adj n (getWordsFast m adj k)
      = .ok (getWordsFast m adj n) := by
  have hcols := wordCols_getWordsFast m adj hm hrow k hk
  have hlenk : (getWordsFast m adj k).length = wordNumAt m adj k :=
    length_getWordsFast m adj k hk
  have hmono : wordNumAt m adj k ≤ wordNumAt m adj n :=
    wordNumAt_mono m adj hrow k n hk hkn
  simp only [appendWordsFast, hcols]
  rw [if_neg (by
    rw [hlenk]
    rintro (h | h)
    · exact absurd h (Nat.not_lt.2 hmono)
    · omega)]
  congr 1
  rw [rangeMapBufRow _ _ _ _ (by rw [hlenk]; exact hmono)]
  rw [hlenk]
  show appendGo m adj (n - k) k (bufDesc m adj n k) = _
  rw [appendGo_bufDesc m adj hrow (n - k) k hk n (by omega)]
  exact bufDesc_self m adj n

/-! ### The word generator yields, per length, the filtered complete
batch. -/

theorem getSymbolicWords_eq_length (m : Nat) (adj : Nat → Nat → Bool)
    (ws : List Word) (L : Nat) (hcols : wordCols ws = L)
    (prime permFree cyclRed periodic : Bool) :
    getSymbolicWords m adj L (some ws) prime permFree cyclRed periodic
      = .ok (applyFilters adj prime permFree cyclRed periodic ws) := by
  have h0 : getSymbolicWords m adj L (some ws) prime permFree cyclRed periodic
      = if L < wordCols ws then
          .error "ValueError: cannot append words to words of shorter length"
        else if wordCols ws = L then
          .ok (applyFilters adj prime permFree cyclRed periodic ws)
        else
          match appendWordsFast m adj L ws with
          | .ok out =>
              .ok (applyFilters adj prime permFree cyclRed periodic out)
          | .error e => .error e := rfl
  rw [h0, hcols, if_neg (by omega), if_pos rfl]

theorem wordGenStream_getD (m : Nat) (adj : Nat → Nat → Bool) (hm : 1 ≤ m)
    (hrow : ∀ i, i < m → ∃ j, j < m ∧ adj i j = true)
    (p pf cr : Bool) :
    ∀ (steps L t : Nat), 1 ≤ L → t < steps →
      (wordGenStream m adj p pf cr steps L (getWordsFast m adj L)).getD t []
        = applyFilters adj p pf cr false (getWordsFast m adj (L + t))
  | 0, _, t, _, ht => absurd ht (by omega)
  | steps + 1, L, 0, hL, _ => by
      show (match getSymbolicWords m adj L (some (getWordsFast m adj L))
          p pf cr false with
        | .ok ws => ws
        | .error _ => ([] : List Word)) = _
      rw [getSymbolicWords_eq_length m adj _ L
        (wordCols_getWordsFast m adj hm hrow L hL) p pf cr false]
      rfl
  | steps + 1, L, t + 1, hL, ht => by
      show (match appendWordsFast m adj (L + 1) (getWordsFast m adj L) with
        | .ok next => wordGenStream m adj p pf cr steps (L + 1) next
        | .error _ => ([] : List (List Word))).getD t [] = _
      rw [appendWordsFast_complete m adj hm hrow L (L + 1) hL (by omega)]
      show (wordGenStream m adj p pf cr steps (L + 1)
          (getWordsFast m adj (L + 1))).getD t [] = _
      rw [wordGenStream_getD m adj hm hrow p pf cr steps (L + 1) t
        (by omega) (by omega)]
      rw [show L + 1 + t = L + (t + 1) by omega]

theorem wordGenerator_getD (m : Nat) (adj : Nat → Nat → Bool) (hm : 1 ≤ m)
    (hrow : ∀ i, i < m → ∃ j, j < m ∧ adj i j = true)
    (nMax : Nat) (h1 : 1 ≤ nMax) (t : Nat) (ht : t < nMax)
    (p pf cr : Bool) :
    (wordGenerator m adj (nMax : Int) p pf cr).getD t []
      = applyFilters adj p pf cr false (getWordsFast m adj (t + 1)) := by
  unfold wordGenerator
  rw [if_neg (by omega)]
  rw [show ((nMax : Int)).toNat = nMax from Int.toNat_natCast nMax]
  rw [wordGenStream_getD m adj hm hrow p pf cr nMax 1 t (by omega) ht]
  rw [Nat.add_comm 1 t]

/-- The set the spec describes for the zeta engines: all admissible,
cyclically reduced words of length `k`, in lexicographic order. -/
def cyclRedWords (m : Nat) (adj : Nat → Nat → Bool) (k : Nat) : List Word :=
  (allWords m k).filter (fun w => admissible adj w && isCyclRedFast adj w)

theorem wgBatch_eq_cyclRedWords (m : Nat) (adj : Nat → Nat → Bool)
    (hm : 1 ≤ m)
    (hrow : ∀ i, i < m → ∃ j, j < m ∧ adj i j = true)
    (nMax j : Nat) (hj : j < nMax) :
    wgBatch m adj nMax j = cyclRedWords m adj (j + 1) := by
  unfold wgBatch
  rw [wordGenerator_getD m adj hm hrow nMax (by omega) j hj false false true]
  show (getWordsFast m adj (j + 1)).filter (isCyclRedFast adj)
      = cyclRedWords m adj (j + 1)
  rw [getWordsFast_eq_filter m adj (j + 1) (by omega)]
  unfold cyclRedWords
  rw [List.filter_filter]
  refine List.filter_congr ?_
  intro w _
  exact Bool.and_comm _ _

/-! ### The word pipeline over the identity (self-loop-only) adjacency
matrix: the only admissible words are the constant words. -/

/-- The m×m identity adjacency matrix: letter `i` may only be followed by
`i` itself. -/
def idAdjacency : Nat → Nat → Bool :=
  fun i j => i == j

/-- The m constant words `[i, i, ..., i]` of length `n`. -/
def constWords (m n : Nat) : List Word :=
  (List.range m).map (fun i => List.replicate n i)

theorem filter_beq_range (m i : Nat) (hi : i < m) :
    (List.range m).filter (fun j => i == j) = [i] := by
  induction m with
  | zero => omega
  | succ m ih =>
      rw [List.range_succ, List.filter_append]
      by_cases h : i < m
      · rw [ih h]
        have hm : (List.filter (fun j => i == j) [m]) = [] := by
          have : (i == m) = false := by
            rw [beq_eq_false_iff_ne]
            omega
          simp [List.filter, this]
        rw [hm, List.append_nil]
      · have him : i = m := by omega
        subst him
        have h1 : (List.range i).filter (fun j => i == j) = [] := by
          rw [List.filter_eq_nil_iff]
          intro j hj
          rw [List.mem_range] at hj
          simp only [beq_iff_eq]
          omega
        rw [h1, List.nil_append]
        simp [List.filter]

theorem adjRow_id (m i : Nat) (hi : i < m) :
    adjRow m idAdjacency i = [i] := by
  unfold adjRow idAdjacency
  rw [if_pos hi]
  exact filter_beq_range m i hi

theorem getLastD_replicate (n i : Nat) (hn : 1 ≤ n) :
    (List.replicate n i).getLastD 0 = i := by
  obtain ⟨k, rfl⟩ : ∃ k, n = k + 1 := by
    rcases n with - | k
    · omega
    · exact ⟨k, rfl⟩
  rw [List.replicate_succ', List.getLastD_concat]

theorem headD_replicate (n i : Nat) (hn : 1 ≤ n) :
    (List.replicate n i).headD 0 = i := by
  obtain ⟨k, rfl⟩ : ∃ k, n = k + 1 := by
    rcases n with - | k
    · omega
    · exact ⟨k, rfl⟩
  rw [List.replicate_succ]
  rfl

theorem flatMap_singleton_eq_map {α β : Type} (f : α → β) :
    ∀ l : List α, l.flatMap (fun x => [f x]) = l.map f
  | [] => rfl
  | a :: l => by
      rw [List.flatMap_cons, List.map_cons,
        flatMap_singleton_eq_map f l]
      rfl

theorem getWordsFast_id (m : Nat) :
    ∀ n : Nat, 1 ≤ n → getWordsFast m idAdjacency n = constWords m n
  | 0, h => absurd h (by omega)
  | 1, _ => by
      rw [getWordsFast_one]
      unfold singletonWords constWords
      refine List.map_congr_left ?_
      intro i _
      rfl
  | n + 2, _ => by
      rw [getWordsFast_succ m idAdjacency (n + 1) (by omega),
        getWordsFast_id m (n + 1) (by omega)]
      unfold extendStep constWords
      rw [List.flatMap_map]
      have h1 : ∀ i ∈ List.range m,
          (adjRow m idAdjacency
              ((List.replicate (n + 1) i).getLastD 0)).map
            (fun j => List.replicate (n + 1) i ++ [j])
            = [List.replicate (n + 2) i] := by
        intro i hi
        rw [List.mem_range] at hi
        rw [getLastD_replicate (n + 1) i (by omega), adjRow_id m i hi]
        rw [List.map_singleton, ← List.replicate_succ']
      rw [flatMap_congr_mem h1]
      exact flatMap_singleton_eq_map _ _

theorem roll_replicate (n i : Nat) (hn : 1 ≤ n) :
    roll (List.replicate n i) = List.replicate n i := by
  obtain ⟨k, rfl⟩ : ∃ k, n = k + 1 := by
    rcases n with - | k
    · omega
    · exact ⟨k, rfl⟩
  have h1 : (List.replicate (k + 1) i).getLast? = some i := by
    rw [List.replicate_succ', List.getLast?_concat]
  have h2 : (List.replicate (k + 1) i).dropLast = List.replicate k i := by
    rw [List.replicate_succ', List.dropLast_concat]
  unfold roll
  rw [h1, h2]
  rfl

theorem containsPermFast_replicate (n i : Nat) (hn : 1 ≤ n)
    (ws : List Word) (hmem : List.replicate n i ∉ ws) :
    containsPermFast (List.replicate n i) ws = false := by
  unfold containsPermFast
  rw [List.any_eq_false]
  intro t _
  rw [Function.iterate_fixed (roll_replicate n i hn) (t + 1)]
  simpa using hmem

theorem replicate_injOn (n : Nat) (hn : 1 ≤ n) (i j : Nat)
    (h : List.replicate n i = List.replicate n j) : i = j := by
  obtain ⟨k, rfl⟩ : ∃ k, n = k + 1 := by
    rcases n with - | k
    · omega
    · exact ⟨k, rfl⟩
  rw [List.replicate_succ, List.replicate_succ] at h
  exact (List.cons_eq_cons.1 h).1

theorem filterPermsAux_replicate (n : Nat) (hn : 1 ≤ n) :
    ∀ (b a : List Nat), (a ++ b).Nodup →
      filterPermsAux (a.map (fun i => List.replicate n i))
          (b.map (fun i => List.replicate n i))
        = b.map (fun i => List.replicate n i)
  | [], _, _ => rfl
  | j :: b, a, hnd => by
      rw [List.map_cons]
      have hnotmem : List.replicate n j ∉ a.map (fun i => List.replicate n i) := by
        intro hmem
        obtain ⟨i, hi, hij⟩ := List.mem_map.1 hmem
        have : i = j := replicate_injOn n hn i j hij
        subst this
        have hdisj := List.disjoint_of_nodup_append hnd
        exact hdisj hi (List.mem_cons_self i b)
      unfold filterPermsAux
      rw [containsPermFast_replicate n j hn _ hnotmem]
      rw [if_neg (by simp)]
      have hmap : (a.map (fun i => List.replicate n i))
            ++ [List.replicate n j]
          = (a ++ [j]).map (fun i => List.replicate n i) := by
        rw [List.map_append]
        rfl
      rw [hmap, filterPermsAux_replicate n hn b (a ++ [j])
        (by rwa [List.append_assoc])]

theorem filterPermsFast_constWords (m n : Nat) (hn : 1 ≤ n) :
    filterPermsFast (constWords m n) = constWords m n := by
  unfold filterPermsFast constWords
  exact filterPermsAux_replicate n hn (List.range m) []
    (by simpa using List.nodup_range m)

theorem isCyclRedFast_replicate (n i : Nat) (hn : 1 ≤ n) :
    isCyclRedFast idAdjacency (List.replicate n i) = true := by
  unfold isCyclRedFast idAdjacency
  rw [getLastD_replicate n i hn, headD_replicate n i hn]
  simp

theorem isPrimeFast_singleton (a : Nat) : isPrimeFast [a] = true := by
  simp [isPrimeFast]

theorem applyFilters_constWords (m n : Nat) (hn : 1 ≤ n)
    (prime permFree cyclRed : Bool) (hp : prime = false ∨ n = 1) :
    applyFilters idAdjacency prime permFree cyclRed false (constWords m n)
      = constWords m n := by
  have hprime : primeStage prime (constWords m n) = constWords m n := by
    unfold primeStage
    rcases hp with hp | hp
    · rw [hp, if_neg (by simp)]
    · subst hp
      rcases prime with - | -
      · rfl
      · rw [if_pos rfl]
        rw [List.filter_eq_self.2]
        intro w hw
        obtain ⟨i, -, rfl⟩ := List.mem_map.1 hw
        exact isPrimeFast_singleton i
  have hperm : permStage permFree (constWords m n) = constWords m n := by
    unfold permStage
    rcases permFree with - | -
    · rfl
    · rw [if_pos rfl, filterPermsFast_constWords m n hn]
  have hcycl : cyclStage idAdjacency cyclRed (constWords m n)
      = constWords m n := by
    unfold cyclStage
    rcases cyclRed with - | -
    · rfl
    · rw [if_pos rfl, List.filter_eq_self.2]
      intro w hw
      obtain ⟨i, -, rfl⟩ := List.mem_map.1 hw
      exact isCyclRedFast_replicate n i hn
  unfold applyFilters
  rw [hprime, hperm, hcycl]
  rfl

/-! ### The weighted-determinant loop always overruns its table: the
basis write needs row 0 and the final iteration writes row nMax, but the
table `np.zeros_like(afArr)` has exactly nMax rows. -/

theorem getRow_ok {α : Type} (t : List α) (n : Nat) (x : α)
    (hx : t.get? n = some x) : getRow t n = .ok x := by
  unfold getRow
  rw [hx]

theorem getRow_error {α : Type} (t : List α) (n : Nat)
    (h : t.length ≤ n) : getRow t n = .error "IndexError" := by
  unfold getRow
  rw [List.get?_eq_none.2 h]

theorem setRow_ok {α : Type} (t : List α) (n : Nat) (x : α)
    (h : n < t.length) : setRow t n x = .ok (t.set n x) := by
  unfold setRow
  rw [if_pos h]

theorem wdStep_error (af : Nat → Nat → Bool → ℂ) (dMax n : Nat)
    (t : List (Nat → Bool → ℂ)) (h : t.length ≤ n) :
    wdStep af dMax n t = .error "IndexError" := by
  unfold wdStep
  rw [getRow_error t n h]
  rfl

theorem wdStep_ok (af : Nat → Nat → Bool → ℂ) (dMax n : Nat)
    (t : List (Nat → Bool → ℂ)) (x : Nat → Bool → ℂ)
    (hx : t.get? n = some x) (h : n < t.length) :
    wdStep af dMax n t = .ok (t.set n (wdNewRow af dMax n t x)) := by
  unfold wdStep
  rw [getRow_ok t n x hx]
  show setRow t n (wdNewRow af dMax n t x) = _
  exact setRow_ok t n _ h

theorem wdGo_error (af : Nat → Nat → Bool → ℂ) (dMax : Nat) :
    ∀ (s n : Nat) (t : List (Nat → Bool → ℂ)), 1 ≤ s →
      n + s = t.length + 1 → wdGo af dMax s n t = .error "IndexError"
  | 0, _, _, hs, _ => absurd hs (by omega)
  | 1, n, t, _, hlen => by
      show (do
        let t' ← wdStep af dMax n t
        wdGo af dMax 0 (n + 1) t') = _
      rw [wdStep_error af dMax n t (by omega)]
      rfl
  | s + 2, n, t, _, hlen => by
      show (do
        let t' ← wdStep af dMax n t
        wdGo af dMax (s + 1) (n + 1) t') = _
      have hn : n < t.length := by omega
      obtain ⟨x, hx⟩ : ∃ x, t.get? n = some x :=
        ⟨t.get ⟨n, hn⟩, List.get?_eq_get hn⟩
      rw [wdStep_ok af dMax n t x hx hn]
      show wdGo af dMax (s + 1) (n + 1) (t.set n (wdNewRow af dMax n t x)) = _
      exact wdGo_error af dMax (s + 1) (n + 1) _ (by omega)
        (by rw [List.length_set]; omega)

theorem calcWeightedD_error (af : Nat → Nat → Bool → ℂ) (nMax dMax : Nat) :
    calcWeightedD af nMax dMax = .error "IndexError" := by
  rcases nMax with - | n
  · show (do
      let z ← getRow ([] : List (Nat → Bool → ℂ)) 0
      let t1 ← setRow ([] : List (Nat → Bool → ℂ)) 0
        (fun d c => if d = 0 ∧ c = false then 1 else z d c)
      wdGo af dMax 0 1 t1) = _
    rw [getRow_error ([] : List (Nat → Bool → ℂ)) 0 (by simp)]
    rfl
  · have h0 : (List.replicate (n + 1)
        (fun _ _ => (0 : ℂ)) : List (Nat → Bool → ℂ)).get? 0
        = some (fun _ _ => (0 : ℂ)) := rfl
    show (do
      let z ← getRow (List.replicate (n + 1) (fun _ _ => (0 : ℂ))) 0
      let t1 ← setRow (List.replicate (n + 1) (fun _ _ => (0 : ℂ))) 0
        (fun d c => if d = 0 ∧ c = false then 1 else z d c)
      wdGo af dMax (n + 1) 1 t1) = _
    rw [getRow_ok _ 0 _ h0]
    show (do
      let t1 ← setRow (List.replicate (n + 1) (fun _ _ => (0 : ℂ))) 0
        (fun d c => if d = 0 ∧ c = false then 1
          else (fun _ _ => (0 : ℂ)) d c)
      wdGo af dMax (n + 1) 1 t1) = _
    rw [setRow_ok _ 0 _ (by rw [List.length_replicate]; omega)]
    show wdGo af dMax (n + 1) 1 _ = _
    exact wdGo_error af dMax (n + 1) 1 _ (by omega)
      (by rw [List.length_set, List.length_replicate]; omega)

theorem calcDynamicalDeterminant_error (af : Nat → Nat → Bool → ℂ)
    (nMax dMax : Nat) :
    calcDynamicalDeterminant af nMax dMax = .error "IndexError" := by
  unfold calcDynamicalDeterminant
  rw [calcWeightedD_error af nMax dMax]
  rfl

/-! ### The intended weighted recursion: channel 0 never reads channel 1
or the orbit integrals, and its dMax = 0 slice is the scalar Bell
recursion. -/

theorem calcWeightedDFix_channel0 (af af' : Nat → Nat → Bool → ℂ)
    (h : ∀ j d, af j d false = af' j d false) :
    ∀ n d, calcWeightedDFix af n d false = calcWeightedDFix af' n d false := by
  intro n
  induction n using Nat.strong_induction_on with
  | _ n ih =>
      intro d
      rcases n with - | n
      · rw [calcWeightedDFix, calcWeightedDFix]
      · rw [calcWeightedDFix, calcWeightedDFix]
        refine Finset.sum_congr rfl ?_
        intro k _
        refine Finset.sum_congr rfl ?_
        intro j _
        simp only [Bool.false_eq_true, if_false]
        rw [ih (n - k) (by omega) j, h k (d - j)]

theorem calcWeightedDFix_dzero (af : Nat → Nat → Bool → ℂ) :
    ∀ n, calcWeightedDFix af n 0 false = bellD (fun j => af j 0 false) n := by
  intro n
  induction n using Nat.strong_induction_on with
  | _ n ih =>
      rcases n with - | n
      · rw [calcWeightedDFix, bellD]
        simp
      · rw [calcWeightedDFix, bellD, Finset.mul_sum]
        refine Finset.sum_congr rfl ?_
        intro k _
        rw [Finset.sum_range_one]
        simp only [Bool.false_eq_true, if_false, Nat.choose_self,
          Nat.cast_one, Nat.sub_zero]
        rw [ih (n - k) (by omega)]
        ring

theorem calcWeightedAEntry_dzero (W : WSystem) (nMax : Nat) (s : ℂ)
    (j : Nat) :
    calcWeightedAEntry W nMax s j 0 false = weightedCalcAslot W nMax s j := by
  unfold calcWeightedAEntry weightedCalcAslot
  congr 1
  refine congrArg List.sum ?_
  refine List.map_congr_left ?_
  intro w _
  simp

/-! ### Last auxiliary facts for the claim theorems -/

theorem admissible_full : ∀ w : Word,
    admissible (fun _ _ => true) w = true
  | [] => rfl
  | [_] => rfl
  | a :: b :: t => by
      show (true && admissible (fun _ _ => true) (b :: t)) = true
      rw [Bool.true_and]
      exact admissible_full (b :: t)

theorem extendStep_nil (m : Nat) (adj : Nat → Nat → Bool) :
    extendStep m adj [] = [] := rfl

theorem getWordsFast_alphabet_nil (adj : Nat → Nat → Bool) (n : Nat) :
    getWordsFast 0 adj n = [] := by
  unfold getWordsFast
  rcases n with - | n'
  · rw [if_pos rfl]
    rfl
  · rw [if_neg (by omega), show singletonWords 0 = [] from rfl]
    exact Function.iterate_fixed (extendStep_nil 0 adj) (n' + 1 - 1)

theorem appendStage_nil (m : Nat) (adj : Nat → Nat → Bool)
    (len wordNum : Nat) : appendStage m adj len wordNum [] = [] := by
  simp [appendStage]

theorem appendGo_nil (m : Nat) (adj : Nat → Nat → Bool) :
    ∀ (s k : Nat), appendGo m adj s k [] = []
  | 0, _ => rfl
  | s + 1, k => by
      show appendGo m adj s (k + 1)
        (appendStage m adj k (matTotal m (adjPow m adj (k - 1))) []) = []
      rw [appendStage_nil]
      exact appendGo_nil m adj s (k + 1)

theorem matTotal_zero (A : Nat → Nat → Nat) : matTotal 0 A = 0 := by
  simp [matTotal]

theorem bellD_eq_Icc (a : Nat → ℂ) (n : Nat) (hn : 1 ≤ n) :
    bellD a n = (1 / (n : ℂ)) *
      ∑ k ∈ Finset.Icc 1 n, (k : ℂ) * bellD a (n - k) * a (k - 1) := by
  obtain ⟨n', rfl⟩ : ∃ n', n = n' + 1 := by
    rcases n with - | n'
    · omega
    · exact ⟨n', rfl⟩
  rw [bellD]
  congr 1
  rw [← Nat.Ico_succ_right, Finset.sum_Ico_eq_sum_range]
  rw [show n' + 1 + 1 - 1 = n' + 1 by omega]
  refine Finset.sum_congr rfl ?_
  intro k _
  rw [show 1 + k = k + 1 by omega, Nat.succ_sub_succ,
    Nat.add_sub_cancel]

/-! ## The claims -/

/-- C1: the claim states that `calcWeightedD` computes the coefficient
table d[n, d, c] for all n = 0..nMax and that `calcDynamicalDeterminant`
then returns, without raising, Z[d, c] = Σ_{n=0}^{nMax} d[n, d, c].  In
fact `dfArr = np.zeros_like(afArr)` allocates only nMax rows along the
order axis, so the basis write (nMax = 0) or the loop iteration n = nMax
(nMax ≥ 1) raises an IndexError: both methods raise on every input and
never return a value. -/
theorem claim_C1_determinant_raises (af : Nat → Nat → Bool → ℂ)
    (nMax dMax : Nat) :
    calcDynamicalDeterminant af nMax dMax = .error "IndexError"
      ∧ calcWeightedD af nMax dMax = .error "IndexError" :=
  ⟨calcDynamicalDeterminant_error af nMax dMax,
    calcWeightedD_error af nMax dMax⟩

/-- C2: for every entry of the complex vector `s` and every nMax ≥ 1 (over
a symbolic dynamics with a nonempty alphabet in which every letter has a
legal successor), the scalar engine returns Σ_{n=0}^{nMax} d_n where the
slot k-1 of the per-length coefficient array satisfies
a[k-1] = -(1/k) Σ_{w cyclically reduced admissible, |w| = k} λ(w)^s / (1-λ(w))
with the principal complex power, and d follows the Bell recursion
d_0 = 1, d_n = (1/n) Σ_{k=1}^n k d_{n-k} a[k-1]. -/
theorem claim_C2_scalar_engine (S : ScalarSystem) (hm : 1 ≤ S.m)
    (hrow : ∀ i, i < S.m → ∃ j, j < S.m ∧ S.adj i j = true)
    (s : List ℂ) (nMax : Nat) (h1 : 1 ≤ nMax) :
    selbergEval S s (nMax : Int)
        = .ok (s.map (fun z =>
            ∑ n ∈ Finset.range (nMax + 1), bellD (selbergAslot S nMax z) n))
  ∧ (∀ (z : ℂ) (k : Nat), 1 ≤ k → k ≤ nMax →
      selbergAslot S nMax z (k - 1)
        = (-1 / (k : ℂ)) *
            ((cyclRedWords S.m S.adj k).map
              (fun w => ((S.stab w : ℂ) ^ z) / (1 - (S.stab w : ℂ)))).sum)
  ∧ (∀ z : ℂ, bellD (selbergAslot S nMax z) 0 = 1)
  ∧ (∀ (z : ℂ) (n : Nat), 1 ≤ n →
      bellD (selbergAslot S nMax z) n
        = (1 / (n : ℂ)) *
            ∑ k ∈ Finset.Icc 1 n,
              (k : ℂ) * bellD (selbergAslot S nMax z) (n - k) *
                selbergAslot S nMax z (k - 1)) := by
  refine ⟨?_, ?_, ?_, ?_⟩
  · unfold selbergEval
    rw [if_neg (by omega)]
    simp only [Int.toNat_natCast]
  · intro z k hk hkn
    unfold selbergAslot
    rw [wgBatch_eq_cyclRedWords S.m S.adj hm hrow nMax (k - 1) (by omega)]
    rw [show k - 1 + 1 = k by omega]
  · intro z
    rw [bellD]
  · intro z n hn
    exact bellD_eq_Icc (selbergAslot S nMax z) n hn

/-- Witness for C2: the hypotheses hold for the one-letter full shift. -/
theorem claim_C2_scalar_engine_witness :
    selbergEval ⟨1, fun _ _ => true, fun _ => 2⟩ [(0 : ℂ)] ((1 : Nat) : Int)
      = .ok ([(0 : ℂ)].map (fun z =>
          ∑ n ∈ Finset.range (1 + 1),
            bellD (selbergAslot ⟨1, fun _ _ => true, fun _ => 2⟩ 1 z) n)) :=
  (claim_C2_scalar_engine ⟨1, fun _ _ => true, fun _ => 2⟩ (by decide)
    (fun i hi => ⟨0, by decide, rfl⟩) [(0 : ℂ)] 1 (by omega)).1

/-- C3: `getWordsFast(n, adj)` returns exactly the admissible length-n
words, each exactly once, in the lexicographic pre-order the spec
describes (equivalently: it is the admissibility filter of the full
lexicographic enumeration), and its size is the total of adj^(n-1). -/
theorem claim_C3_generateWords (m : Nat) (adj : Nat → Nat → Bool) (n : Nat)
    (h1 : 1 ≤ n) :
    getWordsFast m adj n = (allWords m n).filter (admissible adj)
  ∧ (∀ w : Word, w ∈ getWordsFast m adj n
      ↔ (w.length = n ∧ (∀ a ∈ w, a < m) ∧ admissible adj w = true))
  ∧ (getWordsFast m adj n).Nodup
  ∧ (getWordsFast m adj n).length = matTotal m (adjPow m adj (n - 1)) := by
  refine ⟨getWordsFast_eq_filter m adj n h1, ?_, ?_, ?_⟩
  · intro w
    rw [getWordsFast_eq_filter m adj n h1, List.mem_filter, mem_allWords]
    constructor
    · rintro ⟨⟨hl, hm⟩, ha⟩
      exact ⟨hl, hm, ha⟩
    · rintro ⟨hl, hm, ha⟩
      exact ⟨⟨hl, hm⟩, ha⟩
  · rw [getWordsFast_eq_filter m adj n h1]
    exact (allWords_nodup m n).filter _
  · exact length_getWordsFast m adj n h1

/-- Witness for C3 at the 2-letter full shift, n = 2: four words. -/
theorem claim_C3_generateWords_witness :
    (getWordsFast 2 (fun _ _ => true) 2).length = 4 :=
  (claim_C3_generateWords 2 (fun _ _ => true) 2 (by omega)).2.2.2.trans
    (by decide)

/-- C4 counterexample: at n = 1 the length-0 batch `generateWords(0, adj)`
has m rows and no columns, so `extendWords(1, adj, ...)` copies nothing
into its freshly allocated 255-filled buffer and no extension stage runs
(the stage reads the padding letter 255, which is never a legal row of
adj); the result is m rows of `[255]`, not the m singleton words, so the
claimed identity `extendWords(n, adj, generateWords(n-1, adj)) =
generateWords(n, adj)` fails at n = 1 (shown at m = 2). -/
theorem claim_C4_counterexample :
    appendWordsFast 2 (fun _ _ => true) 1
      (getWordsFast 2 (fun _ _ => true) 0)
      = .ok [[255], [255]]
  ∧ appendWordsFast 2 (fun _ _ => true) 1
      (getWordsFast 2 (fun _ _ => true) 0)
      ≠ .ok (getWordsFast 2 (fun _ _ => true) 1) := by
  refine ⟨rfl, ?_⟩
  intro hcontra
  rw [show appendWordsFast 2 (fun _ _ => true) 1
        (getWordsFast 2 (fun _ _ => true) 0)
      = Except.ok [[255], [255]] from rfl] at hcontra
  exact absurd (Except.ok.inj hcontra) (by decide)

/-- C4 amended: over the fully connected m×m adjacency matrix, the
length-n batch has m^n words for every n ≥ 1, and appending to the
complete length-(n-1) batch reproduces generation exactly for every
n ≥ 2; at n = 1 the length-(n-1) batch has no columns and appending it
returns m untouched padding rows `[255]` instead (see the
counterexample). -/
theorem claim_C4_full_shift (m n : Nat) (h1 : 1 ≤ n) :
    (getWordsFast m (fun _ _ => true) n).length = m ^ n
  ∧ (2 ≤ n →
      appendWordsFast m (fun _ _ => true) n
        (getWordsFast m (fun _ _ => true) (n - 1))
        = .ok (getWordsFast m (fun _ _ => true) n)) := by
  constructor
  · rw [getWordsFast_eq_filter m (fun _ _ => true) n h1]
    rw [List.filter_eq_self.2 (fun w _ => admissible_full w)]
    exact length_allWords m n
  · intro h2
    rcases Nat.eq_zero_or_pos m with hm | hm
    · subst hm
      rw [getWordsFast_alphabet_nil, getWordsFast_alphabet_nil]
      simp only [appendWordsFast]
      rw [if_neg (by
        rw [matTotal_zero, show wordCols ([] : List (List Nat)) = 0
          from rfl, show ([] : List (List Nat)).length = 0 from rfl]
        omega)]
      rw [matTotal_zero]
      simp only [List.range_zero, List.map_nil]
      exact congrArg Except.ok (appendGo_nil 0 (fun _ _ => true) _ _)
    · have hrow : ∀ i, i < m → ∃ j, j < m ∧ (fun _ _ => true) i j = true :=
        fun i _ => ⟨0, hm, rfl⟩
      exact appendWordsFast_complete m (fun _ _ => true) hm hrow (n - 1) n
        (by omega) (by omega)

/-- Witness for the amended C4 at m = 2, n = 2: both the count and the
append identity evaluate. -/
theorem claim_C4_full_shift_witness :
    appendWordsFast 2 (fun _ _ => true) 2
      (getWordsFast 2 (fun _ _ => true) 1)
      = .ok (getWordsFast 2 (fun _ _ => true) 2) :=
  (claim_C4_full_shift 2 2 (by omega)).2 (by omega)

/-- C5: the claim asserts that the channel-0 slice of `calcWeightedD` is
independent of the orbit integrals and that at dMax = 0 it reproduces the
scalar Bell recursion over the weighted engine's own per-length
aggregates.  The shipped `calcWeightedD` raises an IndexError before
producing any output (the C1 allocation bug), so the claimed bit-identical
outputs never exist; this theorem shows the claim is right about the
intended recursion: with the allocation repaired (`calcWeightedDFix`),
channel 0 depends only on the channel-0 slice of the base array (which
`calcWeightedAEntry` computes without the integrals), and its d = 0 slice
is exactly `bellD` over `WeightedZeta.calcA`'s aggregates. -/
theorem claim_C5_channel0_support (af af2 : Nat → Nat → Bool → ℂ)
    (h : ∀ j d, af j d false = af2 j d false) :
    (∀ n d, calcWeightedDFix af n d false = calcWeightedDFix af2 n d false)
  ∧ (∀ n, calcWeightedDFix af n 0 false = bellD (fun j => af j 0 false) n)
  ∧ (∀ (W : WSystem) (nMax : Nat) (s : ℂ) (j : Nat),
      calcWeightedAEntry W nMax s j 0 false = weightedCalcAslot W nMax s j) :=
  ⟨calcWeightedDFix_channel0 af af2 h,
    calcWeightedDFix_dzero af,
    fun W nMax s j => calcWeightedAEntry_dzero W nMax s j⟩

/-- Witness for C5: two base arrays agreeing on channel 0. -/
theorem claim_C5_channel0_support_witness :
    calcWeightedDFix (fun _ _ _ => (0 : ℂ)) 1 0 false
      = calcWeightedDFix (fun _ _ c => if c then (1 : ℂ) else 0) 1 0 false :=
  (claim_C5_channel0_support (fun _ _ _ => (0 : ℂ))
    (fun _ _ c => if c then (1 : ℂ) else 0) (fun j d => by simp)).1 1 0

/-- C6 as stated is false: with `prime = True` the prime filter removes
the constant words (a constant word of length ≥ 2 is a repetition of a
shorter block), so the generator yields the empty batch — exactly what
the repository's own test resources (`adjUnitCasePrime`) expect.  Here
m = 1, n = 2: the length-2 batch is empty, not the constant word. -/
theorem claim_C6_counterexample :
    (wordGenerator 1 idAdjacency 2 true false false).getD 1 []
      = ([] : List Word)
  ∧ (wordGenerator 1 idAdjacency 2 true false false).getD 1 []
      ≠ constWords 1 2 := by
  constructor
  · decide
  · decide

/-- C6 amended: over the m×m identity adjacency matrix, `wordGenerator`
yields at length n exactly the m constant words for every combination of
`permFree` and `cyclRed`, provided the prime filter is off (or n = 1,
where constant words are prime). -/
theorem claim_C6_identity_constant_words (m n : Nat) (hm : 1 ≤ m)
    (hn : 1 ≤ n) (prime permFree cyclRed : Bool)
    (hp : prime = false ∨ n = 1) :
    (wordGenerator m idAdjacency (n : Int) prime permFree cyclRed).getD
        (n - 1) []
      = constWords m n := by
  have hrow : ∀ i, i < m → ∃ j, j < m ∧ idAdjacency i j = true :=
    fun i hi => ⟨i, hi, by simp [idAdjacency]⟩
  rw [wordGenerator_getD m idAdjacency hm hrow n hn (n - 1) (by omega)
    prime permFree cyclRed]
  rw [show n - 1 + 1 = n by omega]
  rw [getWordsFast_id m n hn]
  exact applyFilters_constWords m n hn prime permFree cyclRed hp

/-- Witness for the amended C6 at m = 2, n = 2, permFree and cyclRed on. -/
theorem claim_C6_identity_constant_words_witness :
    (wordGenerator 2 idAdjacency ((2 : Nat) : Int) false true true).getD 1 []
      = [[0, 0], [1, 1]] :=
  (claim_C6_identity_constant_words 2 2 (by omega) (by omega)
    false true true (Or.inl rfl)).trans (by decide)

/-- C7's k < n clause is false for an incomplete given batch: extending
the single word [0] to length 2 over the full 2-letter shift returns the
four-row buffer `[[0,0],[0,1],[255,255],[255,255]]` — the two legitimate
extensions followed by two untouched 255-filled rows — rather than just
the extensions of the given word. -/
theorem claim_C7_counterexample :
    getSymbolicWords 2 (fun _ _ => true) 2 (some [[0]])
        false false false false
      = .ok [[0, 0], [0, 1], [255, 255], [255, 255]]
  ∧ getSymbolicWords 2 (fun _ _ => true) 2 (some [[0]])
        false false false false
      ≠ .ok [[0, 0], [0, 1]] := by
  refine ⟨rfl, ?_⟩
  intro hcontra
  rw [show getSymbolicWords 2 (fun _ _ => true) 2 (some [[0]])
        false false false false
      = Except.ok [[0, 0], [0, 1], [255, 255], [255, 255]] from rfl]
    at hcontra
  exact absurd (Except.ok.inj hcontra) (by decide)

/-- C7 amended: extending a batch raises the length-mismatch ValueError
exactly when the given length exceeds the target; it is a pass-through
when they agree; when the given batch is the complete generation output
of its length k < n (and the dynamics has a nonempty alphabet with every
letter extendable) the result is the complete generation output of
length n; a batch of shorter words with at most `np.sum(adj^(n-1))` rows
returns normally; and a batch of shorter words with more rows than that
raises the broadcast ValueError (the initial copy
`result[:givenWordNum, :givenWordLen] = words` is shape-mismatched). -/
theorem claim_C7_extendWords (m : Nat) (adj : Nat → Nat → Bool)
    (hm : 1 ≤ m)
    (hrow : ∀ i, i < m → ∃ j, j < m ∧ adj i j = true) (n : Nat)
    (prime permFree cyclRed periodic : Bool) :
    (∀ ws : List Word, n < wordCols ws →
      getSymbolicWords m adj n (some ws) prime permFree cyclRed periodic
        = .error "ValueError: cannot append words to words of shorter length")
  ∧ (∀ ws : List Word, wordCols ws = n →
      getSymbolicWords m adj n (some ws) prime permFree cyclRed periodic
        = .ok (applyFilters adj prime permFree cyclRed periodic ws))
  ∧ (∀ k : Nat, 1 ≤ k → k ≤ n →
      getSymbolicWords m adj n (some (getWordsFast m adj k))
          prime permFree cyclRed periodic
        = .ok (applyFilters adj prime permFree cyclRed periodic
            (getWordsFast m adj n)))
  ∧ (∀ ws : List Word, wordCols ws < n →
      ws.length ≤ matTotal m (adjPow m adj (n - 1)) →
      ∃ out, getSymbolicWords m adj n (some ws)
        prime permFree cyclRed periodic = .ok out)
  ∧ (∀ ws : List Word, wordCols ws < n →
      matTotal m (adjPow m adj (n - 1)) < ws.length →
      getSymbolicWords m adj n (some ws) prime permFree cyclRed periodic
        = .error "ValueError: could not broadcast input array") := by
  have hdef : ∀ ws : List Word,
      getSymbolicWords m adj n (some ws) prime permFree cyclRed periodic
        = if n < wordCols ws then
            .error "ValueError: cannot append words to words of shorter length"
          else if wordCols ws = n then
            .ok (applyFilters adj prime permFree cyclRed periodic ws)
          else
            match appendWordsFast m adj n ws with
            | .ok out =>
                .ok (applyFilters adj prime permFree cyclRed periodic out)
            | .error e => .error e := fun ws => rfl
  refine ⟨?_, ?_, ?_, ?_, ?_⟩
  · intro ws hlt
    rw [hdef ws, if_pos hlt]
  · intro ws heq
    exact getSymbolicWords_eq_length m adj ws n heq prime permFree
      cyclRed periodic
  · intro k hk hkn
    rcases Nat.eq_or_lt_of_le hkn with hkn1 | hkn2
    · subst hkn1
      exact getSymbolicWords_eq_length m adj _ k
        (wordCols_getWordsFast m adj hm hrow k hk) prime permFree
        cyclRed periodic
    · rw [hdef _, wordCols_getWordsFast m adj hm hrow k hk,
        if_neg (by omega), if_neg (by omega),
        appendWordsFast_complete m adj hm hrow k n hk hkn]
  · intro ws hlt hlen
    have happ : appendWordsFast m adj n ws
        = .ok (appendGo m adj (n - wordCols ws) (wordCols ws)
            ((List.range (matTotal m (adjPow m adj (n - 1)))).map
              (bufRow ws (n - wordCols ws) n))) := by
      simp only [appendWordsFast]
      rw [if_neg (by rintro (h | h) <;> omega)]
    refine ⟨applyFilters adj prime permFree cyclRed periodic
      (appendGo m adj (n - wordCols ws) (wordCols ws)
        ((List.range (matTotal m (adjPow m adj (n - 1)))).map
          (bufRow ws (n - wordCols ws) n))), ?_⟩
    rw [hdef ws, if_neg (by omega), if_neg (by omega), happ]
  · intro ws hlt hlen
    have happ : appendWordsFast m adj n ws
        = .error "ValueError: could not broadcast input array" := by
      simp only [appendWordsFast]
      rw [if_pos (Or.inl hlen)]
    rw [hdef ws, if_neg (by omega), if_neg (by omega), happ]

/-- Witness for the amended C7: extending the complete length-1 batch of
the full 2-letter shift to length 2 gives the complete length-2 batch. -/
theorem claim_C7_extendWords_witness :
    getSymbolicWords 2 (fun _ _ => true) 2
        (some (getWordsFast 2 (fun _ _ => true) 1)) false false false false
      = .ok [[0, 0], [0, 1], [1, 0], [1, 1]] :=
  ((claim_C7_extendWords 2 (fun _ _ => true) (by omega)
      (fun i _ => ⟨0, by omega, rfl⟩) 2 false false false false).2.2.1
    1 (by omega) (by omega)).trans
    (congrArg Except.ok (by decide))

/-- C8: the claim's invariant "the recorded coverage status always agrees
with the arrays actually present in the cache" is violated: after an
integral-covering build (nMax = 1) followed by a larger stabilities-only
build (nMax = 2), the rebuild clears `_integralArrs` but leaves
`_initStatusIntegrals` at its old value, so the cache records integral
coverage 1 while holding no integral arrays; a later
`_initMapSystemData(1, True)` call then no-ops on an empty integral
cache. -/
theorem claim_C8_stale_integral_status :
    (initMapSystemData 1 (fun _ _ => true) id id
        (initMapSystemData 1 (fun _ _ => true) id id
          (initialWZState (List Word) (List Word)) 1 true)
        2 false).statusInt = 1
  ∧ (initMapSystemData 1 (fun _ _ => true) id id
        (initMapSystemData 1 (fun _ _ => true) id id
          (initialWZState (List Word) (List Word)) 1 true)
        2 false).integralArrs = []
  ∧ initMapSystemData 1 (fun _ _ => true) id id
        (initMapSystemData 1 (fun _ _ => true) id id
          (initMapSystemData 1 (fun _ _ => true) id id
            (initialWZState (List Word) (List Word)) 1 true)
          2 false)
        1 true
      = initMapSystemData 1 (fun _ _ => true) id id
          (initMapSystemData 1 (fun _ _ => true) id id
            (initialWZState (List Word) (List Word)) 1 true)
          2 false := by
  refine ⟨?_, ?_, ?_⟩
  · decide
  · decide
  · decide

/-- C9 as stated is false: at nMax = 0 the scalar engine does not yield an
empty result — `bellIteration` allocates nMax+1 columns, the constant row
d_0 = 1 survives, and the evaluation returns 1 for every entry of s. -/
theorem claim_C9_counterexample :
    selbergEval ⟨1, fun _ _ => true, fun _ => 2⟩ [(0 : ℂ)] 0 = .ok [(1 : ℂ)]
  ∧ selbergEval ⟨1, fun _ _ => true, fun _ => 2⟩ [(0 : ℂ)] 0
      ≠ .ok ([] : List ℂ) := by
  have h : selbergEval ⟨1, fun _ _ => true, fun _ => 2⟩ [(0 : ℂ)] 0
      = .ok [(1 : ℂ)] := by
    unfold selbergEval
    rw [if_neg (by omega)]
    congr 1
    rw [List.map_singleton]
    congr 1
    rw [show (0 : Int).toNat = 0 from rfl, Finset.sum_range_one, bellD]
  refine ⟨h, ?_⟩
  intro hcontra
  rw [h] at hcontra
  exact absurd (Except.ok.inj hcontra) (by simp)

/-- C9 amended: for nMax = 0 the evaluation returns the constant d_0 = 1
for every entry of s; for nMax < 0 it raises (numpy rejects the negative
dimension when allocating `aArr`); for nMax ≥ 0 it returns one value per
entry of s — it never yields an empty result for a nonempty s. -/
theorem claim_C9_small_nMax (S : ScalarSystem) (s : List ℂ) :
    selbergEval S s 0 = .ok (s.map (fun _ => 1))
  ∧ (∀ nMax : Int, nMax < 0 →
      selbergEval S s nMax
        = .error "ValueError: negative dimensions are not allowed")
  ∧ (∀ nMax : Int, 0 ≤ nMax →
      ∃ out, selbergEval S s nMax = .ok out ∧ out.length = s.length) := by
  refine ⟨?_, ?_, ?_⟩
  · unfold selbergEval
    rw [if_neg (by omega)]
    congr 1
    refine List.map_congr_left ?_
    intro z _
    rw [show (0 : Int).toNat = 0 from rfl, Finset.sum_range_one, bellD]
  · intro nMax hneg
    unfold selbergEval
    rw [if_pos hneg]
  · intro nMax hpos
    refine ⟨s.map (fun z => ∑ n ∈ Finset.range (nMax.toNat + 1),
        bellD (selbergAslot S nMax.toNat z) n), ?_, ?_⟩
    · unfold selbergEval
      rw [if_neg (by omega)]
    · rw [List.length_map]

/-- Witness for the amended C9: negative nMax raises. -/
theorem claim_C9_small_nMax_witness :
    selbergEval ⟨1, fun _ _ => true, fun _ => 2⟩ [(0 : ℂ)] (-1)
      = .error "ValueError: negative dimensions are not allowed" :=
  (claim_C9_small_nMax ⟨1, fun _ _ => true, fun _ => 2⟩ [(0 : ℂ)]).2.1
    (-1) (by omega)

/-- C10: `wordGenerator` with maxWordLength < 1 returns before the first
yield: the produced sequence is empty for every filter combination. -/
theorem claim_C10_empty_generator (m : Nat) (adj : Nat → Nat → Bool)
    (maxWordLength : Int) (h : maxWordLength < 1)
    (prime permFree cyclRed : Bool) :
    wordGenerator m adj maxWordLength prime permFree cyclRed = [] := by
  unfold wordGenerator
  rw [if_pos h]

/-- Witness for C10 at maxWordLength = 0. -/
theorem claim_C10_empty_generator_witness :
    wordGenerator 3 (fun _ _ => true) 0 true true true = [] :=
  claim_C10_empty_generator 3 (fun _ _ => true) 0 (by omega) true true true

end PyZeta
